import Mathlib

/-!
Verification development for the narration pipeline: transcript segmentation,
voice lookup and validation, generation orchestration, worker callbacks and
audio assembly.  Text is modelled as `List Char` (ASCII fragment), Python
`int()` / `round()` on nonnegative rationals as explicit rational operations,
and the regular expressions of the transcript parser as executable scanners.
-/

/-- Strings are modelled as lists of characters. -/
abbrev Str := List Char

/-- ASCII whitespace, the fragment of Python `str.isspace` / `\s` relevant here. -/
def pyIsSpace (c : Char) : Bool :=
  c = ' ' || c = '\t' || c = '\n' || c = '\r' || c = '\x0b' || c = '\x0c'

/-- The character class `[A-Za-z]`. -/
def isLatinLetter (c : Char) : Bool :=
  ('A' ≤ c && c ≤ 'Z') || ('a' ≤ c && c ≤ 'z')

/-- The character class `[A-Za-z\s]` used after the head of a bare speaker name. -/
def nameChar (c : Char) : Bool :=
  isLatinLetter c || pyIsSpace c

/-- Python `str.rstrip`: drop trailing whitespace. -/
def pyRStrip (s : Str) : Str :=
  (List.dropWhile pyIsSpace s.reverse).reverse

/-- Python `str.strip`: drop leading and trailing whitespace. -/
def pyStrip (s : Str) : Str :=
  pyRStrip (List.dropWhile pyIsSpace s)

theorem pyRStrip_eq_nil_iff (s : Str) : pyRStrip s = [] ↔ ∀ c ∈ s, pyIsSpace c := by
  unfold pyRStrip
  rw [List.reverse_eq_nil_iff, List.dropWhile_eq_nil_iff]
  constructor
  · intro h c hc
    exact h c (List.mem_reverse.2 hc)
  · intro h c hc
    exact h c (List.mem_reverse.1 hc)

theorem mem_dropWhile_of_not {p : Char → Bool} {s : Str} {c : Char}
    (hc : c ∈ s) (hp : ¬ p c) : c ∈ List.dropWhile p s := by
  induction s with
  | nil => cases hc
  | cons a t ih =>
    by_cases hpa : p a
    · rw [List.dropWhile_cons_of_pos hpa]
      rw [List.mem_cons] at hc
      rcases hc with rfl | hc
      · exact absurd hpa hp
      · exact ih hc
    · rw [List.dropWhile_cons_of_neg hpa]
      exact hc

theorem pyStrip_eq_nil_iff (s : Str) : pyStrip s = [] ↔ ∀ c ∈ s, pyIsSpace c := by
  unfold pyStrip
  rw [pyRStrip_eq_nil_iff]
  constructor
  · intro h c hc
    by_cases hsp : pyIsSpace c
    · exact hsp
    · exact absurd (h c (mem_dropWhile_of_not hc (by simp [hsp]))) (by simp [hsp])
  · intro h c hc
    exact h c ((List.dropWhile_sublist (p := pyIsSpace) (l := s)).mem hc)

theorem pyStrip_ne_nil {s : Str} {c : Char} (hc : c ∈ s) (hp : pyIsSpace c = false) :
    pyStrip s ≠ [] := by
  intro h
  rw [pyStrip_eq_nil_iff] at h
  rw [h c hc] at hp
  cases hp

/-- Lexicographic comparison of strings by character code, as Python `<` on `str`. -/
def strLt : Str → Str → Bool
  | [], [] => false
  | [], _ :: _ => true
  | _ :: _, [] => false
  | a :: s, b :: t => if a < b then true else if b < a then false else strLt s t

theorem strLt_trans : ∀ {a b c : Str}, strLt a b = true → strLt b c = true → strLt a c = true
  | [], [], _, h₁, _ => by cases h₁
  | [], _ :: _, [], _, h₂ => by cases h₂
  | [], _ :: _, _ :: _, _, _ => rfl
  | _ :: _, [], _, h₁, _ => by cases h₁
  | _ :: _, _ :: _, [], _, h₂ => by cases h₂
  | x :: a, y :: b, z :: c, h₁, h₂ => by
    unfold strLt at h₁ h₂ ⊢
    rcases lt_trichotomy x y with hxy | rfl | hxy
    · rcases lt_trichotomy y z with hyz | rfl | hyz
      · simp only [if_pos (lt_trans hxy hyz)]
      · simp only [if_pos hxy]
      · simp only [if_neg (asymm hyz), if_pos hyz] at h₂
        cases h₂
    · simp only [if_neg (lt_irrefl x)] at h₁
      rcases lt_trichotomy x z with hxz | rfl | hxz
      · simp only [if_pos hxz]
      · simp only [if_neg (lt_irrefl x)] at h₂ ⊢
        exact strLt_trans h₁ h₂
      · simp only [if_neg (asymm hxz), if_pos hxz] at h₂
        cases h₂
    · simp only [if_neg (asymm hxy), if_pos hxy] at h₁
      cases h₁

theorem strLt_asymm : ∀ {a b : Str}, strLt a b = true → strLt b a = false
  | [], [], h => by cases h
  | [], _ :: _, _ => rfl
  | _ :: _, [], h => by cases h
  | x :: a, y :: b, h => by
    unfold strLt at h ⊢
    rcases lt_trichotomy x y with hxy | rfl | hxy
    · simp only [if_neg (asymm hxy), if_pos hxy]
    · simp only [if_neg (lt_irrefl x)] at h ⊢
      exact strLt_asymm h
    · simp only [if_neg (asymm hxy), if_pos hxy] at h
      cases h

theorem strLt_conn : ∀ {a b : Str}, a ≠ b → strLt a b = true ∨ strLt b a = true
  | [], [], h => absurd rfl h
  | [], _ :: _, _ => Or.inl rfl
  | _ :: _, [], _ => Or.inr rfl
  | x :: a, y :: b, h => by
    unfold strLt
    rcases lt_trichotomy x y with hxy | rfl | hxy
    · exact Or.inl (by simp only [if_pos hxy])
    · simp only [if_neg (lt_irrefl x)]
      have hab : a ≠ b := fun hh => h (by rw [hh])
      exact strLt_conn hab
    · exact Or.inr (by simp only [if_pos hxy])

/-- Insert a string into a list, keeping strings ordered by `strLt`. -/
def insertStr (x : Str) : List Str → List Str
  | [] => [x]
  | y :: ys => if strLt y x then y :: insertStr x ys else x :: y :: ys

/-- Insertion sort by `strLt`; models Python `sorted` on a list of strings. -/
def sortStrs : List Str → List Str
  | [] => []
  | x :: xs => insertStr x (sortStrs xs)

theorem mem_insertStr {x y : Str} : ∀ {l : List Str}, y ∈ insertStr x l ↔ y = x ∨ y ∈ l
  | [] => by simp [insertStr]
  | z :: zs => by
    unfold insertStr
    by_cases h : strLt z x = true
    · rw [if_pos h]
      simp only [List.mem_cons, mem_insertStr]
      tauto
    · rw [if_neg h]
      simp only [List.mem_cons]

theorem mem_sortStrs {y : Str} : ∀ {l : List Str}, y ∈ sortStrs l ↔ y ∈ l
  | [] => Iff.rfl
  | x :: xs => by
    unfold sortStrs
    rw [mem_insertStr, List.mem_cons, mem_sortStrs]

theorem pairwise_insertStr {x : Str} :
    ∀ {l : List Str}, List.Pairwise (fun a b => strLt a b = true) l →
    (∀ y ∈ l, y ≠ x) →
    List.Pairwise (fun a b => strLt a b = true) (insertStr x l)
  | [], _, _ => by simp [insertStr]
  | z :: zs, hp, hne => by
    unfold insertStr
    rcases List.pairwise_cons.1 hp with ⟨hz, hzs⟩
    by_cases h : strLt z x = true
    · rw [if_pos h]
      refine List.pairwise_cons.2 ⟨?_, ?_⟩
      · intro y hy
        rcases mem_insertStr.1 hy with rfl | hy
        · exact h
        · exact hz y hy
      · exact pairwise_insertStr hzs (fun y hy => hne y (List.mem_cons_of_mem _ hy))
    · rw [if_neg h]
      have hzx : z ≠ x := hne z (List.mem_cons_self _ _)
      have hxz : strLt x z = true := by
        rcases strLt_conn hzx with h' | h'
        · exact absurd h' h
        · exact h'
      refine List.pairwise_cons.2 ⟨?_, hp⟩
      intro y hy
      rcases List.mem_cons.1 hy with rfl | hy
      · exact hxz
      · exact strLt_trans hxz (hz y hy)

theorem pairwise_sortStrs :
    ∀ {l : List Str}, l.Nodup → List.Pairwise (fun a b => strLt a b = true) (sortStrs l)
  | [], _ => List.Pairwise.nil
  | x :: xs, hnd => by
    unfold sortStrs
    rcases List.nodup_cons.1 hnd with ⟨hx, hxs⟩
    refine pairwise_insertStr (pairwise_sortStrs hxs) ?_
    intro y hy hyx
    exact hx (hyx ▸ mem_sortStrs.1 hy)

theorem nodup_sortStrs {l : List Str} (h : l.Nodup) : (sortStrs l).Nodup := by
  have hp := pairwise_sortStrs h
  refine hp.imp ?_
  intro a b hab hEq
  rw [hEq] at hab
  have hfalse := strLt_asymm hab
  rw [hab] at hfalse
  cases hfalse

/-- The literal `Speaker:` inside the bracket alternative of the speaker pattern. -/
def speakerLit : Str := "Speaker:".toList

/-- Capture computed by the bracket alternative `\[(?:Speaker:\s*)?([^\]]+)\]` on the
run `full` of non-`]` characters, following the regex backtracking order. -/
def bracketCap (full : Str) : Str :=
  if List.isPrefixOf speakerLit full then
    let r2 := full.drop 8
    let ws := r2.takeWhile pyIsSpace
    let core := r2.drop ws.length
    if core ≠ [] then core
    else
      match ws.getLast? with
      | some w => [w]
      | none => full
  else full

/-- Match of the alternative `\[(?:Speaker:\s*)?([^\]]+)\]` at the head of `s`,
returning the capture and the suffix after the match. -/
def matchBracket : Str → Option (Str × Str)
  | [] => none
  | c :: t =>
    if c = '[' then
      let full := t.takeWhile (fun x => x ≠ ']')
      let rest := t.drop full.length
      if rest.head? = some ']' ∧ full ≠ [] then some (bracketCap full, rest.tail) else none
    else none

/-- Match of the alternative `\(([^)]+)\)` at the head of `s`. -/
def matchParen : Str → Option (Str × Str)
  | [] => none
  | c :: t =>
    if c = '(' then
      let full := t.takeWhile (fun x => x ≠ ')')
      let rest := t.drop full.length
      if rest.head? = some ')' ∧ full ≠ [] then some (full, rest.tail) else none
    else none

/-- Match of the alternative `^([A-Za-z][A-Za-z\s]+):`, applicable only at a line start. -/
def matchBare : Str → Option (Str × Str)
  | [] => none
  | c :: t =>
    if isLatinLetter c then
      let run := t.takeWhile nameChar
      let rest := t.drop run.length
      if rest.head? = some ':' ∧ run ≠ [] then some (c :: run, rest.tail) else none
    else none

/-- One attempt of the compiled speaker pattern at the head of `s`: the three
alternatives are tried in the pattern's order, the bare-name one only when the
position is a line start (MULTILINE `^`). -/
def speakerMatch (lineStart : Bool) (s : Str) : Option (Str × Str) :=
  match matchBracket s with
  | some r => some r
  | none =>
    match matchParen s with
    | some r => some r
    | none => if lineStart then matchBare s else none

theorem matchBracket_rest_lt {s : Str} {pr : Str × Str}
    (h : matchBracket s = some pr) : pr.2.length < s.length := by
  cases s with
  | nil => cases h
  | cons c t =>
    simp only [matchBracket] at h
    by_cases hc : c = '['
    · rw [if_pos hc] at h
      by_cases hcond : (t.drop (t.takeWhile (fun x => x ≠ ']')).length).head? = some ']' ∧
          t.takeWhile (fun x => x ≠ ']') ≠ []
      · rw [if_pos hcond] at h
        have hpr := Option.some.inj h
        have h2 : pr.2 = (t.drop (t.takeWhile (fun x => x ≠ ']')).length).tail := by
          rw [← hpr]
        rw [h2]
        have hle : (t.drop (t.takeWhile (fun x => x ≠ ']')).length).length ≤ t.length := by
          rw [List.length_drop]
          omega
        have htail : ((t.drop (t.takeWhile (fun x => x ≠ ']')).length).tail).length ≤
            (t.drop (t.takeWhile (fun x => x ≠ ']')).length).length := by
          rw [List.length_tail]
          omega
        simp only [List.length_cons]
        omega
      · rw [if_neg hcond] at h
        cases h
    · rw [if_neg hc] at h
      cases h

theorem matchParen_rest_lt {s : Str} {pr : Str × Str}
    (h : matchParen s = some pr) : pr.2.length < s.length := by
  cases s with
  | nil => cases h
  | cons c t =>
    simp only [matchParen] at h
    by_cases hc : c = '('
    · rw [if_pos hc] at h
      by_cases hcond : (t.drop (t.takeWhile (fun x => x ≠ ')')).length).head? = some ')' ∧
          t.takeWhile (fun x => x ≠ ')') ≠ []
      · rw [if_pos hcond] at h
        have hpr := Option.some.inj h
        have h2 : pr.2 = (t.drop (t.takeWhile (fun x => x ≠ ')')).length).tail := by
          rw [← hpr]
        rw [h2]
        have hle : (t.drop (t.takeWhile (fun x => x ≠ ')')).length).length ≤ t.length := by
          rw [List.length_drop]
          omega
        have htail : ((t.drop (t.takeWhile (fun x => x ≠ ')')).length).tail).length ≤
            (t.drop (t.takeWhile (fun x => x ≠ ')')).length).length := by
          rw [List.length_tail]
          omega
        simp only [List.length_cons]
        omega
      · rw [if_neg hcond] at h
        cases h
    · rw [if_neg hc] at h
      cases h

theorem matchBare_rest_lt {s : Str} {pr : Str × Str}
    (h : matchBare s = some pr) : pr.2.length < s.length := by
  cases s with
  | nil => cases h
  | cons c t =>
    simp only [matchBare] at h
    by_cases hc : isLatinLetter c = true
    · rw [if_pos hc] at h
      by_cases hcond : (t.drop (t.takeWhile nameChar).length).head? = some ':' ∧
          t.takeWhile nameChar ≠ []
      · rw [if_pos hcond] at h
        have hpr := Option.some.inj h
        have h2 : pr.2 = (t.drop (t.takeWhile nameChar).length).tail := by
          rw [← hpr]
        rw [h2]
        have hle : (t.drop (t.takeWhile nameChar).length).length ≤ t.length := by
          rw [List.length_drop]
          omega
        have htail : ((t.drop (t.takeWhile nameChar).length).tail).length ≤
            (t.drop (t.takeWhile nameChar).length).length := by
          rw [List.length_tail]
          omega
        simp only [List.length_cons]
        omega
      · rw [if_neg hcond] at h
        cases h
    · rw [if_neg hc] at h
      cases h

theorem speakerMatch_rest_lt {ls : Bool} {s : Str} {pr : Str × Str}
    (h : speakerMatch ls s = some pr) : pr.2.length < s.length := by
  unfold speakerMatch at h
  cases hb : matchBracket s with
  | some r =>
    rw [hb] at h
    cases h
    exact matchBracket_rest_lt hb
  | none =>
    rw [hb] at h
    cases hp : matchParen s with
    | some r =>
      rw [hp] at h
      cases h
      exact matchParen_rest_lt hp
    | none =>
      rw [hp] at h
      cases ls with
      | true =>
        rw [if_pos rfl] at h
        exact matchBare_rest_lt h
      | false =>
        rw [if_neg (by simp)] at h
        cases h

/-- Fueled scan over the text, modelling `finditer` of the speaker pattern:
at each position try the pattern; on a match record the capture and resume
after the match, otherwise advance one character, tracking line starts. -/
def scanAux : ℕ → Str → Bool → List Str
  | 0, _, _ => []
  | _ + 1, [], _ => []
  | f + 1, c :: t, ls =>
    match speakerMatch ls (c :: t) with
    | some (cap, rest) => cap :: scanAux f rest false
    | none => scanAux f t (c == '\n')

theorem scanAux_nil (f : ℕ) (ls : Bool) : scanAux f [] ls = [] := by
  cases f <;> rfl

theorem scanAux_fuel : ∀ (f₁ : ℕ) (f₂ : ℕ) (s : Str) (ls : Bool),
    s.length ≤ f₁ → s.length ≤ f₂ → scanAux f₁ s ls = scanAux f₂ s ls := by
  intro f₁
  induction f₁ with
  | zero =>
    intro f₂ s ls h₁ _
    have hs : s = [] := List.eq_nil_of_length_eq_zero (Nat.le_zero.1 h₁)
    subst hs
    rw [scanAux_nil, scanAux_nil]
  | succ f ih =>
    intro f₂ s ls h₁ h₂
    cases s with
    | nil => rw [scanAux_nil, scanAux_nil]
    | cons c t =>
      cases f₂ with
      | zero =>
        simp only [List.length_cons] at h₂
        omega
      | succ g =>
        simp only [scanAux]
        cases hm : speakerMatch ls (c :: t) with
        | some pr =>
          obtain ⟨cap, rest⟩ := pr
          have hlt := speakerMatch_rest_lt hm
          simp only [List.length_cons] at hlt h₁ h₂
          exact congrArg (List.cons cap) (ih g rest false (by omega) (by omega))
        | none =>
          simp only [List.length_cons] at h₁ h₂
          exact ih g t (c == '\n') (by omega) (by omega)

/-- Scan wrapper with fuel fixed to the text length. -/
def scanF (s : Str) (ls : Bool) : List Str := scanAux s.length s ls

theorem scanF_cons_some {c : Char} {t cap rest : Str} {ls : Bool}
    (h : speakerMatch ls (c :: t) = some (cap, rest)) :
    scanF (c :: t) ls = cap :: scanF rest false := by
  unfold scanF
  simp only [List.length_cons, scanAux]
  rw [h]
  have hlt := speakerMatch_rest_lt h
  simp only [List.length_cons] at hlt
  exact congrArg (List.cons cap) (scanAux_fuel t.length rest.length rest false (by omega) (by omega))

theorem scanF_cons_none {c : Char} {t : Str} {ls : Bool}
    (h : speakerMatch ls (c :: t) = none) :
    scanF (c :: t) ls = scanF t (c == '\n') := by
  unfold scanF
  simp only [List.length_cons, scanAux]
  rw [h]

/-- A transcript segment: text, optional voice label, id; mirrors the
`TranscriptSegment` dataclass. -/
structure TranscriptSegment where
  text : Str
  voice : Option Str
  segment_id : ℕ
deriving DecidableEq

/-- Python `text.split(sep)` for a single separator character (keeps empty parts). -/
def splitChar (sep : Char) : Str → List Str
  | [] => [[]]
  | c :: t =>
    if c = sep then [] :: splitChar sep t
    else
      match splitChar sep t with
      | b :: bs => (c :: b) :: bs
      | [] => [[c]]

/-- Prepend a character to the first block of a split result. -/
def consHead (c : Char) : List Str → List Str
  | [] => [[c]]
  | b :: bs => (c :: b) :: bs

/-- Python `text.split("\n\n")`: split on exact double newlines, left to right,
non-overlapping, keeping empty parts. -/
def nnSplit : Str → List Str
  | [] => [[]]
  | '\n' :: '\n' :: t => [] :: nnSplit t
  | c :: t => consHead c (nnSplit t)

/-- Index of the last `'\n'` in `run` (meaningful when `run` contains one). -/
def lastNlIdx (run : Str) : ℕ :=
  run.length - 1 - (run.reverse.takeWhile (fun c => c ≠ '\n')).length

/-- Find the first match of `\n\s*\n` in `s`: returns the part before the match and
the suffix after it.  The separator runs from a `'\n'` through the last `'\n'` of the
whitespace run that follows it (greedy `\s*` with backtracking to a final `'\n'`). -/
def findSep : Str → Option (Str × Str)
  | [] => none
  | c :: t =>
    if c = '\n' ∧ '\n' ∈ t.takeWhile pyIsSpace then
      some ([], t.drop (lastNlIdx (t.takeWhile pyIsSpace) + 1))
    else
      match findSep t with
      | some pr => some (c :: pr.1, pr.2)
      | none => none

theorem findSep_rest_lt : ∀ {s : Str} {pr : Str × Str},
    findSep s = some pr → pr.2.length < s.length
  | [], _, h => by cases h
  | c :: t, pr, h => by
    simp only [findSep] at h
    by_cases hc : c = '\n' ∧ '\n' ∈ t.takeWhile pyIsSpace
    · rw [if_pos hc] at h
      have hpr := Option.some.inj h
      have h2 : pr.2 = t.drop (lastNlIdx (t.takeWhile pyIsSpace) + 1) := by
        rw [← hpr]
      rw [h2, List.length_drop, List.length_cons]
      omega
    · rw [if_neg hc] at h
      cases hfs : findSep t with
      | some pr' =>
        rw [hfs] at h
        have hpr := Option.some.inj h
        have hlt := findSep_rest_lt hfs
        have h2 : pr.2 = pr'.2 := by rw [← hpr]
        rw [h2, List.length_cons]
        omega
      | none =>
        rw [hfs] at h
        cases h

/-- Python `re.split(r'\n\s*\n', text)`: the list of blocks between separators. -/
def manualSplit (s : Str) : List Str :=
  match h : findSep s with
  | none => [s]
  | some pr => pr.1 :: manualSplit pr.2
termination_by s.length
decreasing_by exact findSep_rest_lt h

/-- Turn an indexed list of raw blocks into segments: strip each block, drop blocks
that are empty after stripping, keep the block's index in the split as `segment_id`. -/
def blocksToSegments (blocks : List Str) : List TranscriptSegment :=
  blocks.enum.filterMap (fun pr =>
    let cleaned := pyStrip pr.2
    if cleaned ≠ [] then some ⟨cleaned, none, pr.1⟩ else none)

/-- `TranscriptParser._parse_single`. -/
def parse_single (text : Str) (voice : Option Str) : List TranscriptSegment :=
  [⟨pyStrip text, voice, 0⟩]

/-- `TranscriptParser._parse_manual`: split on blank lines (`\n\s*\n`). -/
def parse_manual (text : Str) : List TranscriptSegment :=
  blocksToSegments (manualSplit text)

/-- `TranscriptParser._parse_paragraphs`: split on exact `\n\n`. -/
def parse_paragraphs (text : Str) : List TranscriptSegment :=
  blocksToSegments (nnSplit text)

/-- The line loop of `TranscriptParser._parse_annotated`: state is the active voice,
the accumulated text lines and the next segment id. -/
def annotLoop : List Str → Option Str → List Str → ℕ → List TranscriptSegment
  | [], voice, currentText, sid =>
    if currentText ≠ [] then
      let tc := pyStrip (List.intercalate [' '] currentText)
      if tc ≠ [] then [⟨tc, voice, sid⟩] else []
    else []
  | l :: rest, voice, currentText, sid =>
    let line := pyStrip l
    if line = [] then annotLoop rest voice currentText sid
    else
      match speakerMatch true line with
      | some (cap, after) =>
        let flushed :=
          if currentText ≠ [] then
            let tc := pyStrip (List.intercalate [' '] currentText)
            if tc ≠ [] then [⟨tc, voice, sid⟩] else ([] : List TranscriptSegment)
          else []
        let remaining := pyStrip after
        flushed ++ annotLoop rest (some (pyStrip cap))
          (if remaining ≠ [] then [remaining] else []) (sid + flushed.length)
      | none => annotLoop rest voice (currentText ++ [line]) sid

/-- `TranscriptParser._parse_annotated`. -/
def parse_annotated (text : Str) (default_voice : Option Str) : List TranscriptSegment :=
  annotLoop (splitChar '\n' text) default_voice [] 0

/-- `TranscriptParser.parse_transcript`: empty/whitespace-only text yields an empty
list; an unknown mode is a hard error (`none`). -/
def parse_transcript (text : Str) (mode : Str) (default_voice : Option Str) :
    Option (List TranscriptSegment) :=
  if pyStrip text = [] then some []
  else if mode = "single".toList then some (parse_single text default_voice)
  else if mode = "manual".toList then some (parse_manual text)
  else if mode = "annotated".toList then some (parse_annotated text default_voice)
  else if mode = "paragraphs".toList then some (parse_paragraphs text)
  else none

/-- `TranscriptParser.detect_speakers`: collect every capture of the speaker pattern
over the whole text, keep truthy ones stripped, as a sorted deduplicated list. -/
def detect_speakers (text : Str) : List Str :=
  sortStrs (((scanF text true).filter (fun cap => cap ≠ [])).map pyStrip).dedup

/-- One step of the missing-voice accumulation: add a segment's voice when it is
truthy, unavailable and not yet collected. -/
def missingStep (available : List Str) (acc : List Str) (s : TranscriptSegment) : List Str :=
  match s.voice with
  | some v => if v ≠ [] ∧ v ∉ available ∧ v ∉ acc then acc ++ [v] else acc
  | none => acc

/-- The set of missing voices accumulated by `validate_segment_voices`
(Python set membership modelled by first-insertion order). -/
def collectMissing (segments : List TranscriptSegment) (available : List Str) : List Str :=
  segments.foldl (missingStep available) []

/-- `TranscriptParser.validate_segment_voices`. -/
def validate_segment_voices (segments : List TranscriptSegment) (available : List Str) :
    Bool × List Str :=
  let missing := collectMissing segments available
  (missing.isEmpty, sortStrs missing)

/-- `TranscriptParser.assign_voices_to_segments`; the Python dict is modelled as a
partial map from segment ids to voice names. -/
def assign_voices_to_segments (segments : List TranscriptSegment)
    (voice_mapping : ℕ → Option Str) : List TranscriptSegment :=
  segments.map (fun s =>
    match voice_mapping s.segment_id with
    | some v => { s with voice := some v }
    | none => s)

/-- A voice registry entry; only the name is relevant to lookup. -/
structure VoiceEntry where
  name : Str
deriving DecidableEq

/-- The literal `"[Library] "`. -/
def libTag : Str := "[Library] ".toList

/-- Fueled removal of every occurrence of `"[Library] "`, as Python
`name.replace("[Library] ", "")`. -/
def removeTagAux : ℕ → Str → Str
  | 0, s => s
  | _ + 1, [] => []
  | f + 1, c :: t =>
    if List.isPrefixOf libTag (c :: t) then removeTagAux f (t.drop 9)
    else c :: removeTagAux f t

/-- Python `name.replace("[Library] ", "")`: remove all occurrences, left to right. -/
def removeLibTag (s : Str) : Str := removeTagAux s.length s

/-- `VoiceLibrary.get_voice_by_name`: clean the label by removing every
`"[Library] "` occurrence and stripping whitespace, then return the first entry
with exactly that name. -/
def get_voice_by_name (voices : List VoiceEntry) (nm : Str) : Option VoiceEntry :=
  let clean := pyStrip (removeLibTag nm)
  voices.find? (fun v => v.name == clean)

/-- Modelled from the spec's words, for comparison with `get_voice_by_name`:
strip a literal `"[Library] "` prefix if present, then match by exact name. -/
def lookupSpec (voices : List VoiceEntry) (label : Str) : Option VoiceEntry :=
  let cleaned := if List.isPrefixOf libTag label then label.drop 10 else label
  voices.find? (fun v => v.name == cleaned)

/-- Python `int(q)` for a nonnegative rational: truncation toward zero. -/
def pyIntNat (q : ℚ) : ℕ := q.num.toNat / q.den

/-- Python `round(q)`: round half to even (banker's rounding). -/
def pyRound (q : ℚ) : ℤ :=
  let f := ⌊q⌋
  let r := q - (f : ℚ)
  if r < 1/2 then f
  else if 1/2 < r then f + 1
  else if f % 2 = 0 then f else f + 1

/-- The `merged` list built by the loop of `merge_audio_segments`: each segment
followed by the silence buffer, except after the last segment. -/
def buildMerged (silence : List ℚ) : List (List ℚ) → List (List ℚ)
  | [] => []
  | [s] => [s]
  | s :: rest => s :: silence :: buildMerged silence rest

/-- `merge_audio_segments`: empty input yields an empty waveform, a single segment is
returned as-is, otherwise segments are concatenated with
`int(silence_duration * sample_rate)` zero samples between consecutive segments. -/
def merge_audio_segments (segments : List (List ℚ)) (sample_rate : ℕ)
    (silence_duration : ℚ) : List ℚ :=
  match segments with
  | [] => []
  | [w] => w
  | _ =>
    let silence := List.replicate (pyIntNat (silence_duration * (sample_rate : ℚ))) (0 : ℚ)
    (buildMerged silence segments).flatten

/-- Outcome of the background task body: normal return or a raised exception. -/
inductive RunOutcome (ρ ε : Type) where
  | normal (r : ρ)
  | raised (e : ε)
deriving DecidableEq

/-- A terminal callback invocation recorded by the worker. -/
inductive CbEvent (ρ ε : Type) where
  | success (r : ρ)
  | failure (e : ε)
deriving DecidableEq

/-- `TTSWorker.run`: invoke the success callback on a normal return and the error
callback on an exception, in both cases only when the stop flag is not set at task
completion and the corresponding callback was supplied. -/
def ttsRunCallbacks {ρ ε : Type} (o : RunOutcome ρ ε) (stopSet : Bool)
    (hasSuccess : Bool) (hasError : Bool) : List (CbEvent ρ ε) :=
  match o with
  | .normal r => if !stopSet && hasSuccess then [CbEvent.success r] else []
  | .raised e => if !stopSet && hasError then [CbEvent.failure e] else []

/-- Voice kinds stored in the library (`voice_data["type"]`). -/
inductive VoiceKind where
  | preset
  | cloned
  | designed
deriving DecidableEq

/-- Observable events of the generation loop: a progress emission and a synthesis
call for a segment index. -/
inductive GenEvent where
  | progressEv (idx : ℕ) (pct : ℕ) (msg : Str)
  | synthEv (idx : ℕ) (kind : VoiceKind) (txt : Str)
deriving DecidableEq

/-- Result of the generation task: the ordered waveform list, the cancelled
sentinel (`None`), or a raised exception. -/
inductive TaskResult (α : Type) where
  | completed (ws : List α)
  | cancelledRes
  | errorRes
deriving DecidableEq

/-- The f-string `f"Processing segment {i+1}/{total}"`. -/
def procMsg (i total : ℕ) : Str :=
  "Processing segment ".toList ++ Nat.toDigits 10 (i + 1) ++ "/".toList
    ++ Nat.toDigits 10 total

/-- Prepend a waveform to a completed result; cancellation and errors absorb it. -/
def prependWave {α : Type} (w : α) : TaskResult α → TaskResult α
  | .completed ws => .completed (w :: ws)
  | .cancelledRes => .cancelledRes
  | .errorRes => .errorRes

/-- The `generate_task` loop of the narration tab, from segment index `i` on:
check the cancellation flag at the top of each iteration, emit progress, resolve the
segment's voice in the library, dispatch cloned/designed synthesis, skip segments
whose voice is missing or of any other kind (including `preset`), and accumulate one
waveform per dispatched segment.  `lib` is the library lookup by voice name, `wave i`
the waveform produced by the synthesis call of segment `i` (the engine is modelled as
total), `cancel i` the stop flag sampled at iteration `i`'s check. -/
def generateTask {α : Type} (lib : Str → Option VoiceKind) (wave : ℕ → α)
    (cancel : ℕ → Bool) (total : ℕ) :
    ℕ → List TranscriptSegment → List GenEvent × TaskResult α
  | _, [] => ([], .completed [])
  | i, s :: rest =>
    if cancel i then ([], .cancelledRes)
    else
      let pe := GenEvent.progressEv i ((100 * i) / total) (procMsg i total)
      match s.voice with
      | none => ([pe], .errorRes)
      | some v =>
        match lib v with
        | some VoiceKind.cloned =>
          let tail := generateTask lib wave cancel total (i + 1) rest
          (pe :: GenEvent.synthEv i VoiceKind.cloned s.text :: tail.1,
            prependWave (wave i) tail.2)
        | some VoiceKind.designed =>
          let tail := generateTask lib wave cancel total (i + 1) rest
          (pe :: GenEvent.synthEv i VoiceKind.designed s.text :: tail.1,
            prependWave (wave i) tail.2)
        | some VoiceKind.preset =>
          let tail := generateTask lib wave cancel total (i + 1) rest
          (pe :: tail.1, tail.2)
        | none =>
          let tail := generateTask lib wave cancel total (i + 1) rest
          (pe :: tail.1, tail.2)

/-- Progress pairs emitted by the task body, in order. -/
def progressPairs (evs : List GenEvent) : List (ℕ × Str) :=
  evs.filterMap (fun e =>
    match e with
    | GenEvent.progressEv _ pct msg => some (pct, msg)
    | GenEvent.synthEv _ _ _ => none)

/-- `TTSWorker._progress_wrapper` forwards a progress pair to the stored
`self.progress_callback` only when one was supplied to the constructor. -/
def wrapperDelivered (storedCb : Bool) (pairs : List (ℕ × Str)) : List (ℕ × Str) :=
  if storedCb then pairs else []

/-- Progress pairs actually received by the sink in the narration-tab wiring:
`CancellableWorker(generate_task, kwargs={"progress_callback": on_progress}, ...)`
passes the sink inside `kwargs` only, so the constructor's `progress_callback`
parameter — the one `_progress_wrapper` forwards to — is `None`, and `run()`
overwrites the kwargs entry with `_progress_wrapper` itself. -/
def narrationDeliveredProgress {α : Type} (lib : Str → Option VoiceKind) (wave : ℕ → α)
    (cancel : ℕ → Bool) (segs : List TranscriptSegment) : List (ℕ × Str) :=
  wrapperDelivered false (progressPairs (generateTask lib wave cancel segs.length 0 segs).1)

theorem buildMerged_eq_intersperse (silence : List ℚ) :
    ∀ ws : List (List ℚ), buildMerged silence ws = List.intersperse silence ws
  | [] => rfl
  | [w] => rfl
  | w :: w' :: rest => by
    show w :: silence :: buildMerged silence (w' :: rest) = _
    rw [buildMerged_eq_intersperse silence (w' :: rest)]
    rfl

theorem buildMerged_flatten_length (silence : List ℚ) :
    ∀ ws : List (List ℚ), ws ≠ [] →
    ((buildMerged silence ws).flatten).length
      = (ws.map List.length).sum + (ws.length - 1) * silence.length
  | [], h => absurd rfl h
  | [w], _ => by simp [buildMerged]
  | w :: w' :: rest, _ => by
    have ih := buildMerged_flatten_length silence (w' :: rest) (by simp)
    show ((w :: silence :: buildMerged silence (w' :: rest)).flatten).length = _
    rw [List.flatten_cons, List.flatten_cons, List.length_append, List.length_append, ih]
    simp only [List.map_cons, List.sum_cons, List.length_cons, Nat.add_sub_cancel]
    ring

/-- C1 (amended): `merge_audio_segments` intersperses a zero-filled buffer of
`int(d·sr)` samples (truncation, not rounding) strictly between consecutive
waveforms; for one waveform the input is returned unchanged, for none the result is
empty, and for `N ≥ 1` the output length is `Σ len(ws[i]) + (N-1)·int(d·sr)`. -/
theorem merge_structure (ws : List (List ℚ)) (sr : ℕ) (d : ℚ) (hd : 0 ≤ d) :
    merge_audio_segments ws sr d
        = (List.intersperse (List.replicate (pyIntNat (d * (sr : ℚ))) (0 : ℚ)) ws).flatten
      ∧ (ws ≠ [] → (merge_audio_segments ws sr d).length
          = (ws.map List.length).sum + (ws.length - 1) * pyIntNat (d * (sr : ℚ)))
      ∧ (∀ w, merge_audio_segments [w] sr d = w)
      ∧ merge_audio_segments ([] : List (List ℚ)) sr d = [] := by
  refine ⟨?_, ?_, fun w => rfl, rfl⟩
  · match ws with
    | [] => rfl
    | [w] => simp [merge_audio_segments]
    | w :: w' :: rest =>
      show (buildMerged _ (w :: w' :: rest)).flatten = _
      rw [buildMerged_eq_intersperse]
  · intro hne
    match ws with
    | [] => exact absurd rfl hne
    | [w] => simp [merge_audio_segments]
    | w :: w' :: rest =>
      show ((buildMerged _ (w :: w' :: rest)).flatten).length = _
      rw [buildMerged_flatten_length _ _ (by simp)]
      simp [List.length_replicate]

theorem merge_structure_witness :
    (0 : ℚ) ≤ 3 / 10
    ∧ (merge_audio_segments [[1], [2, 2]] 10 (3 / 10)
          = (List.intersperse (List.replicate (pyIntNat ((3 / 10) * ((10 : ℕ) : ℚ))) (0 : ℚ))
              [[1], [2, 2]]).flatten
        ∧ (([[1], [2, 2]] : List (List ℚ)) ≠ [] →
            (merge_audio_segments [[1], [2, 2]] 10 (3 / 10)).length
              = (([[1], [2, 2]] : List (List ℚ)).map List.length).sum
                + (([[1], [2, 2]] : List (List ℚ)).length - 1)
                  * pyIntNat ((3 / 10) * ((10 : ℕ) : ℚ)))
        ∧ (∀ w, merge_audio_segments [w] 10 (3 / 10) = w)
        ∧ merge_audio_segments ([] : List (List ℚ)) 10 (3 / 10) = []) :=
  ⟨by norm_num, merge_structure [[1], [2, 2]] 10 (3 / 10) (by norm_num)⟩

/-- C1 counterexample: with waveforms `[[1],[1]]`, sample rate 3 and silence 0.5 s,
the code inserts `int(1.5) = 1` silence sample giving total length 3, while the
claimed formula with `round(1.5) = 2` demands length 4. -/
theorem pyIntNat_eq_floor (q : ℚ) (h : 0 ≤ q) : (pyIntNat q : ℤ) = ⌊q⌋ := by
  have hnum : 0 ≤ q.num := Rat.num_nonneg.2 h
  rw [Rat.floor_def]
  unfold pyIntNat
  rw [Int.natCast_div, Int.toNat_of_nonneg hnum]

theorem pyIntNat_half_three : pyIntNat ((1 / 2 : ℚ) * ((3 : ℕ) : ℚ)) = 1 := by
  rw [show ((1 / 2 : ℚ) * ((3 : ℕ) : ℚ)) = 3 / 2 from by norm_num]
  have h2 := pyIntNat_eq_floor (3 / 2 : ℚ) (by norm_num)
  rw [show ⌊(3 / 2 : ℚ)⌋ = 1 from by rw [Int.floor_eq_iff] <;> norm_num] at h2
  exact_mod_cast h2

theorem pyRound_half_three : pyRound ((1 / 2 : ℚ) * ((3 : ℕ) : ℚ)) = 2 := by
  have h : ((1 / 2 : ℚ) * ((3 : ℕ) : ℚ)) = 3 / 2 := by norm_num
  rw [h]
  unfold pyRound
  rw [show ⌊(3 / 2 : ℚ)⌋ = 1 from by rw [Int.floor_eq_iff] <;> norm_num]
  norm_num

/-- C1 counterexample: with waveforms `[[1],[1]]`, sample rate 3 and silence 0.5 s,
the code inserts `int(1.5) = 1` silence sample giving total length 3, while the
claimed formula with `round(1.5) = 2` demands length 4. -/
theorem merge_round_counterexample :
    (merge_audio_segments [[1], [1]] 3 (1 / 2)).length = 3
    ∧ (([[1], [1]] : List (List ℚ)).map List.length).sum
        + (([[1], [1]] : List (List ℚ)).length - 1) * (pyRound ((1 / 2) * ((3 : ℕ) : ℚ))).toNat = 4
    ∧ (3 : ℕ) ≠ 4 := by
  refine ⟨?_, ?_, by decide⟩
  · show ((buildMerged (List.replicate (pyIntNat ((1 / 2) * ((3 : ℕ) : ℚ))) (0 : ℚ))
      [[1], [1]]).flatten).length = 3
    rw [pyIntNat_half_three]
    simp [buildMerged]
  · rw [pyRound_half_three]
    decide

/-- C3 counterexample: a cancelled run — the task returns the `None` sentinel with the
stop flag set and both callbacks supplied — invokes no terminal callback at all, so
"exactly one of onSuccess/onError fires" is false, and cancellation is not delivered
through onSuccess. -/
theorem worker_cancel_no_callback :
    (ttsRunCallbacks (RunOutcome.normal (none : Option Unit)) true true true
        : List (CbEvent (Option Unit) Unit)) = []
    ∧ ((ttsRunCallbacks (RunOutcome.normal (none : Option Unit)) true true true
        : List (CbEvent (Option Unit) Unit))).length ≠ 1 := by
  exact ⟨rfl, by decide⟩

/-- C3 (amended): when the stop flag is not set at task completion, exactly one
terminal callback fires, exactly once — onSuccess with the result on a normal return
(in particular the `None` cancelled sentinel), onError with the exception on a raise;
when the stop flag is set at completion — in particular on every externally cancelled
run — neither callback is invoked. -/
theorem worker_callback_discipline {ρ ε : Type} (o : RunOutcome ρ ε) :
    (ttsRunCallbacks o false true true).length = 1
    ∧ (∀ r : ρ, ttsRunCallbacks (RunOutcome.normal r) false true true
        = [CbEvent.success (ε := ε) r])
    ∧ (∀ e : ε, ttsRunCallbacks (RunOutcome.raised e) false true true
        = [CbEvent.failure (ρ := ρ) e])
    ∧ (∀ o' : RunOutcome ρ ε, ttsRunCallbacks o' true true true = []) := by
  refine ⟨?_, fun r => rfl, fun e => rfl, fun o' => ?_⟩
  · cases o <;> rfl
  · cases o' <;> rfl

/-- C10: `assign_voices_to_segments` preserves the list's length and order, keeps
every segment's `text` and `segment_id`, rewrites the `voice` of exactly the segments
whose id is a key of the mapping to the mapped name, and leaves the voice of every
other segment unchanged. -/
theorem assign_voices_frame (segments : List TranscriptSegment)
    (voice_mapping : ℕ → Option Str) :
    (assign_voices_to_segments segments voice_mapping).length = segments.length
    ∧ ∀ i : ℕ,
        ((assign_voices_to_segments segments voice_mapping).get? i).map
            TranscriptSegment.text = (segments.get? i).map TranscriptSegment.text
        ∧ ((assign_voices_to_segments segments voice_mapping).get? i).map
            TranscriptSegment.segment_id = (segments.get? i).map TranscriptSegment.segment_id
        ∧ ((assign_voices_to_segments segments voice_mapping).get? i).map
            TranscriptSegment.voice
          = (segments.get? i).map (fun s =>
              match voice_mapping s.segment_id with
              | some v => some v
              | none => s.voice) := by
  refine ⟨List.length_map _ _, fun i => ?_⟩
  unfold assign_voices_to_segments
  rw [List.get?_map]
  cases hs : segments.get? i with
  | none => exact ⟨rfl, rfl, rfl⟩
  | some s =>
    simp only [Option.map_some']
    cases voice_mapping s.segment_id <;> exact ⟨rfl, rfl, rfl⟩

/-- C2 (code evaluated at the failing input): a job whose single segment resolves to
a library voice of type `preset` makes no synthesis call — the dispatch's else-branch
logs "Unknown voice type" and `continue`s — and the job completes with an empty
waveform list instead of one waveform for the segment. -/
theorem preset_segment_skipped :
    generateTask (α := ℕ)
        (fun v => if v = "Vivian".toList then some VoiceKind.preset else none)
        (fun _ => 0) (fun _ => false) 1 0
        [⟨"hello".toList, some "Vivian".toList, 0⟩]
      = ([GenEvent.progressEv 0 0 (procMsg 0 1)], TaskResult.completed [])
    ∧ ([] : List ℕ).length ≠ [(⟨"hello".toList, some "Vivian".toList, 0⟩ :
        TranscriptSegment)].length := by
  exact ⟨rfl, by decide⟩

/-- C7 (code evaluated at the failing input): the narration wiring stores no
constructor progress callback, so `_progress_wrapper` forwards to `None` and the
supplied sink receives nothing — even though the task itself emits the pair
`(0, "Processing segment 1/1")` for segment 0 of a one-segment job. -/
theorem narration_progress_never_delivered :
    (∀ (lib : Str → Option VoiceKind) (wave : ℕ → ℕ) (cancel : ℕ → Bool)
        (segs : List TranscriptSegment),
      narrationDeliveredProgress lib wave cancel segs = [])
    ∧ progressPairs (generateTask (α := ℕ)
          (fun v => if v = "v".toList then some VoiceKind.cloned else none)
          (fun _ => 0) (fun _ => false) 1 0
          [⟨"hello".toList, some "v".toList, 0⟩]).1
        = [(0, procMsg 0 1)] := by
  exact ⟨fun _ _ _ _ => rfl, rfl⟩

theorem missingStep_none {available acc : List Str} {s : TranscriptSegment}
    (h : s.voice = none) : missingStep available acc s = acc := by
  unfold missingStep
  rw [h]

theorem missingStep_some {available acc : List Str} {s : TranscriptSegment} {w : Str}
    (h : s.voice = some w) :
    missingStep available acc s
      = if w ≠ [] ∧ w ∉ available ∧ w ∉ acc then acc ++ [w] else acc := by
  unfold missingStep
  rw [h]

theorem mem_foldl_missingStep (available : List Str) (v : Str) :
    ∀ (segs : List TranscriptSegment) (acc : List Str),
      v ∈ segs.foldl (missingStep available) acc
        ↔ v ∈ acc ∨ ∃ s ∈ segs, s.voice = some v ∧ v ≠ [] ∧ v ∉ available
  | [], acc => by simp
  | s :: rest, acc => by
    rw [List.foldl_cons, mem_foldl_missingStep available v rest]
    cases hv : s.voice with
    | none =>
      rw [missingStep_none hv]
      constructor
      · rintro (h | ⟨s', hs', h⟩)
        · exact Or.inl h
        · exact Or.inr ⟨s', List.mem_cons_of_mem _ hs', h⟩
      · rintro (h | ⟨s', hs', h⟩)
        · exact Or.inl h
        · rcases List.mem_cons.1 hs' with rfl | hs''
          · rw [hv] at h
            cases h.1
          · exact Or.inr ⟨s', hs'', h⟩
    | some w =>
      rw [missingStep_some hv]
      by_cases hcond : w ≠ [] ∧ w ∉ available ∧ w ∉ acc
      · rw [if_pos hcond]
        constructor
        · rintro (h | ⟨s', hs', h⟩)
          · rcases List.mem_append.1 h with h | h
            · exact Or.inl h
            · rw [List.mem_singleton] at h
              subst h
              exact Or.inr ⟨s, List.mem_cons_self _ _, hv, hcond.1, hcond.2.1⟩
          · exact Or.inr ⟨s', List.mem_cons_of_mem _ hs', h⟩
        · rintro (h | ⟨s', hs', h⟩)
          · exact Or.inl (List.mem_append.2 (Or.inl h))
          · rcases List.mem_cons.1 hs' with rfl | hs''
            · rw [hv] at h
              have hw : w = v := Option.some.inj h.1
              subst hw
              exact Or.inl (List.mem_append.2 (Or.inr (List.mem_singleton.2 rfl)))
            · exact Or.inr ⟨s', hs'', h⟩
      · rw [if_neg hcond]
        constructor
        · rintro (h | ⟨s', hs', h⟩)
          · exact Or.inl h
          · exact Or.inr ⟨s', List.mem_cons_of_mem _ hs', h⟩
        · rintro (h | ⟨s', hs', h⟩)
          · exact Or.inl h
          · rcases List.mem_cons.1 hs' with rfl | hs''
            · rw [hv] at h
              have hw : w = v := Option.some.inj h.1
              subst hw
              by_cases hacc : w ∈ acc
              · exact Or.inl hacc
              · exact absurd ⟨h.2.1, h.2.2, hacc⟩ hcond
            · exact Or.inr ⟨s', hs'', h⟩

theorem nodup_foldl_missingStep (available : List Str) :
    ∀ (segs : List TranscriptSegment) (acc : List Str),
      acc.Nodup → (segs.foldl (missingStep available) acc).Nodup
  | [], _, h => h
  | s :: rest, acc, h => by
    rw [List.foldl_cons]
    refine nodup_foldl_missingStep available rest _ ?_
    cases hv : s.voice with
    | none =>
      rw [missingStep_none hv]
      exact h
    | some w =>
      rw [missingStep_some hv]
      by_cases hcond : w ≠ [] ∧ w ∉ available ∧ w ∉ acc
      · rw [if_pos hcond]
        rw [List.nodup_append]
        refine ⟨h, List.nodup_singleton w, ?_⟩
        intro x hx hxw
        rw [List.mem_singleton] at hxw
        subst hxw
        exact hcond.2.2 hx
      · rw [if_neg hcond]
        exact h

theorem sortStrs_eq_nil_iff (l : List Str) : sortStrs l = [] ↔ l = [] := by
  cases l with
  | nil => simp [sortStrs]
  | cons x xs =>
    simp only [sortStrs]
    constructor
    · intro h
      have hx : x ∈ insertStr x (sortStrs xs) := mem_insertStr.2 (Or.inl rfl)
      rw [h] at hx
      cases hx
    · intro h
      cases h

/-- C8: `validate_segment_voices` returns `ok` exactly when no truthy segment voice
is missing from the available names; the returned `missing` list contains exactly the
truthy voices absent from `availableNames`, deduplicated and sorted in strictly
increasing lexicographic order; and segments with voices `["A","B"]` against
`["A"]` yield `(false, ["B"])`. -/
theorem validate_voices_correct (segments : List TranscriptSegment) (available : List Str) :
    ((validate_segment_voices segments available).1
        = (validate_segment_voices segments available).2.isEmpty)
    ∧ ((validate_segment_voices segments available).1 = true
        ↔ ∀ s ∈ segments, ∀ v, s.voice = some v → v ≠ [] → v ∈ available)
    ∧ (∀ v, v ∈ (validate_segment_voices segments available).2
        ↔ ∃ s ∈ segments, s.voice = some v ∧ v ≠ [] ∧ v ∉ available)
    ∧ List.Pairwise (fun a b => strLt a b = true) (validate_segment_voices segments available).2
    ∧ (validate_segment_voices segments available).2.Nodup
    ∧ validate_segment_voices
        [⟨"t".toList, some "A".toList, 0⟩, ⟨"u".toList, some "B".toList, 1⟩]
        ["A".toList]
      = (false, ["B".toList]) := by
  have hnodup : (collectMissing segments available).Nodup :=
    nodup_foldl_missingStep available segments [] List.nodup_nil
  have hmem : ∀ v, v ∈ collectMissing segments available
      ↔ ∃ s ∈ segments, s.voice = some v ∧ v ≠ [] ∧ v ∉ available := by
    intro v
    rw [collectMissing, mem_foldl_missingStep]
    simp
  refine ⟨?_, ?_, ?_, ?_, ?_, by decide⟩
  · show (collectMissing segments available).isEmpty
        = (sortStrs (collectMissing segments available)).isEmpty
    rcases hempty : collectMissing segments available with _ | ⟨x, xs⟩
    · rfl
    · have hne : sortStrs (x :: xs) ≠ [] := fun hcontra => by
        cases (sortStrs_eq_nil_iff (x :: xs)).1 hcontra
      cases hs : sortStrs (x :: xs) with
      | nil => exact absurd hs hne
      | cons y ys => rfl
  · show ((collectMissing segments available).isEmpty = true) ↔ _
    rw [List.isEmpty_iff, List.eq_nil_iff_forall_not_mem]
    constructor
    · intro h s hs v hv hne
      by_contra hnav
      exact h v ((hmem v).2 ⟨s, hs, hv, hne, hnav⟩)
    · intro h v hv
      obtain ⟨s, hs, hv', hne, hnav⟩ := (hmem v).1 hv
      exact hnav (h s hs v hv' hne)
  · intro v
    show v ∈ sortStrs (collectMissing segments available) ↔ _
    rw [mem_sortStrs]
    exact hmem v
  · exact pairwise_sortStrs hnodup
  · exact nodup_sortStrs hnodup

theorem isPrefixOf_append_self (p s : Str) : List.isPrefixOf p (p ++ s) = true := by
  simp [List.isPrefixOf_iff_prefix]

theorem removeTagAux_fuel : ∀ (f g : ℕ) (s : Str),
    s.length ≤ f → s.length ≤ g → removeTagAux f s = removeTagAux g s := by
  intro f
  induction f with
  | zero =>
    intro g s h₁ _
    have hs : s = [] := List.eq_nil_of_length_eq_zero (Nat.le_zero.1 h₁)
    subst hs
    cases g <;> rfl
  | succ f ih =>
    intro g s h₁ h₂
    cases s with
    | nil => cases g <;> rfl
    | cons c t =>
      cases g with
      | zero =>
        simp only [List.length_cons] at h₂
        omega
      | succ g' =>
        simp only [removeTagAux]
        simp only [List.length_cons] at h₁ h₂
        by_cases hp : List.isPrefixOf libTag (c :: t) = true
        · rw [if_pos hp, if_pos hp]
          have hdrop : (t.drop 9).length ≤ t.length := by
            rw [List.length_drop]
            omega
          exact ih g' (t.drop 9) (by omega) (by omega)
        · rw [if_neg hp, if_neg hp]
          rw [ih g' t (by omega) (by omega)]

theorem removeLibTag_tag_append (s : Str) :
    removeLibTag (libTag ++ s) = removeLibTag s := by
  show removeTagAux (libTag ++ s).length (libTag ++ s) = removeTagAux s.length s
  have h10 : libTag.length = 10 := rfl
  have hlen : (libTag ++ s).length = s.length + 10 := by
    rw [List.length_append, h10]
    omega
  rw [hlen]
  have hcons : libTag ++ s = '[' :: (libTag.tail ++ s) := rfl
  rw [hcons]
  simp only [removeTagAux]
  rw [if_pos (by exact isPrefixOf_append_self libTag s)]
  have hdrop : (libTag.tail ++ s).drop 9 = s := by
    have h9 : (libTag.tail).length = 9 := rfl
    rw [← h9, List.drop_left]
  rw [hdrop]
  exact removeTagAux_fuel (s.length + 9) s.length s (by omega) (le_refl _)

/-- `True` when the string contains no occurrence of `"[Library] "` at any position. -/
def noTag : Str → Bool
  | [] => true
  | c :: t => !(List.isPrefixOf libTag (c :: t)) && noTag t

theorem removeLibTag_of_noTag : ∀ {s : Str}, noTag s = true → removeLibTag s = s := by
  intro s
  induction s with
  | nil => intro _; rfl
  | cons c t ih =>
    intro h
    unfold noTag at h
    rw [Bool.and_eq_true] at h
    have hp : List.isPrefixOf libTag (c :: t) = false := by
      rw [← Bool.not_eq_true']
      exact h.1
    show removeTagAux (t.length + 1) (c :: t) = c :: t
    simp only [removeTagAux]
    rw [if_neg (by simp [hp])]
    show c :: removeLibTag t = c :: t
    rw [ih h.2]

/-- C9 (amended): `Lookup` removes every occurrence of the substring `"[Library] "`
from the label and strips surrounding whitespace before matching by exact name; in
particular a label that contains no such occurrence and no surrounding whitespace is
matched by exact name equality, and a `"[Library] "`-prefixed label resolves exactly
as the unprefixed label does. -/
theorem lookup_cleaning (voices : List VoiceEntry) (label : Str)
    (hnotag : noTag label = true) (hstr : pyStrip label = label) :
    get_voice_by_name voices label = voices.find? (fun v => v.name == label)
    ∧ ∀ lbl : Str, get_voice_by_name voices (libTag ++ lbl)
        = get_voice_by_name voices lbl := by
  constructor
  · show voices.find? (fun v => v.name == pyStrip (removeLibTag label)) = _
    rw [removeLibTag_of_noTag hnotag, hstr]
  · intro lbl
    show voices.find? (fun v => v.name == pyStrip (removeLibTag (libTag ++ lbl))) = _
    rw [removeLibTag_tag_append]
    rfl

theorem lookup_cleaning_witness :
    noTag "Ann".toList = true
    ∧ pyStrip "Ann".toList = "Ann".toList
    ∧ (get_voice_by_name [⟨"Ann".toList⟩] "Ann".toList
          = [(⟨"Ann".toList⟩ : VoiceEntry)].find? (fun v => v.name == "Ann".toList)
        ∧ ∀ lbl : Str, get_voice_by_name [⟨"Ann".toList⟩] (libTag ++ lbl)
            = get_voice_by_name [⟨"Ann".toList⟩] lbl) :=
  ⟨by decide, by decide, lookup_cleaning [⟨"Ann".toList⟩] "Ann".toList (by decide) (by decide)⟩

/-- C9 counterexample: the label `"a [Library] b"` carries no `"[Library] "` prefix,
yet the code resolves it to the entry named `"a b"` because `str.replace` removes the
occurrence in the middle; prefix-stripping followed by exact matching (the claim's
description, `lookupSpec`) finds nothing. -/
theorem lookup_not_only_at_head :
    get_voice_by_name [⟨"a b".toList⟩] "a [Library] b".toList = some ⟨"a b".toList⟩
    ∧ lookupSpec [⟨"a b".toList⟩] "a [Library] b".toList = none
    ∧ get_voice_by_name [⟨"Ann".toList⟩] " Ann ".toList = some ⟨"Ann".toList⟩
    ∧ lookupSpec [⟨"Ann".toList⟩] " Ann ".toList = none := by
  refine ⟨by decide, by decide, by decide, by decide⟩

theorem generateTask_cancelStep {α : Type} {lib : Str → Option VoiceKind} {wave : ℕ → α}
    {cancel : ℕ → Bool} {total i : ℕ} {s : TranscriptSegment} {rest : List TranscriptSegment}
    (h : cancel i = true) :
    generateTask lib wave cancel total i (s :: rest) = ([], TaskResult.cancelledRes) := by
  simp only [generateTask]
  rw [if_pos h]

theorem generateTask_voiceNone {α : Type} {lib : Str → Option VoiceKind} {wave : ℕ → α}
    {cancel : ℕ → Bool} {total i : ℕ} {s : TranscriptSegment} {rest : List TranscriptSegment}
    (hc : cancel i = false) (hv : s.voice = none) :
    generateTask lib wave cancel total i (s :: rest)
      = ([GenEvent.progressEv i ((100 * i) / total) (procMsg i total)], TaskResult.errorRes) := by
  obtain ⟨txt, voi, sid⟩ := s
  dsimp only at hv
  subst hv
  simp only [generateTask]
  rw [if_neg (by simp [hc])]

theorem generateTask_cloned {α : Type} {lib : Str → Option VoiceKind} {wave : ℕ → α}
    {cancel : ℕ → Bool} {total i : ℕ} {s : TranscriptSegment} {rest : List TranscriptSegment}
    {v : Str} (hc : cancel i = false) (hv : s.voice = some v)
    (hk : lib v = some VoiceKind.cloned) :
    generateTask lib wave cancel total i (s :: rest)
      = (GenEvent.progressEv i ((100 * i) / total) (procMsg i total)
          :: GenEvent.synthEv i VoiceKind.cloned s.text
          :: (generateTask lib wave cancel total (i + 1) rest).1,
         prependWave (wave i) (generateTask lib wave cancel total (i + 1) rest).2) := by
  obtain ⟨txt, voi, sid⟩ := s
  dsimp only at hv
  subst hv
  simp only [generateTask]
  rw [if_neg (by simp [hc])]
  rw [hk]

theorem generateTask_designed {α : Type} {lib : Str → Option VoiceKind} {wave : ℕ → α}
    {cancel : ℕ → Bool} {total i : ℕ} {s : TranscriptSegment} {rest : List TranscriptSegment}
    {v : Str} (hc : cancel i = false) (hv : s.voice = some v)
    (hk : lib v = some VoiceKind.designed) :
    generateTask lib wave cancel total i (s :: rest)
      = (GenEvent.progressEv i ((100 * i) / total) (procMsg i total)
          :: GenEvent.synthEv i VoiceKind.designed s.text
          :: (generateTask lib wave cancel total (i + 1) rest).1,
         prependWave (wave i) (generateTask lib wave cancel total (i + 1) rest).2) := by
  obtain ⟨txt, voi, sid⟩ := s
  dsimp only at hv
  subst hv
  simp only [generateTask]
  rw [if_neg (by simp [hc])]
  rw [hk]

theorem generateTask_preset {α : Type} {lib : Str → Option VoiceKind} {wave : ℕ → α}
    {cancel : ℕ → Bool} {total i : ℕ} {s : TranscriptSegment} {rest : List TranscriptSegment}
    {v : Str} (hc : cancel i = false) (hv : s.voice = some v)
    (hk : lib v = some VoiceKind.preset) :
    generateTask lib wave cancel total i (s :: rest)
      = (GenEvent.progressEv i ((100 * i) / total) (procMsg i total)
          :: (generateTask lib wave cancel total (i + 1) rest).1,
         (generateTask lib wave cancel total (i + 1) rest).2) := by
  obtain ⟨txt, voi, sid⟩ := s
  dsimp only at hv
  subst hv
  simp only [generateTask]
  rw [if_neg (by simp [hc])]
  rw [hk]

theorem generateTask_libNone {α : Type} {lib : Str → Option VoiceKind} {wave : ℕ → α}
    {cancel : ℕ → Bool} {total i : ℕ} {s : TranscriptSegment} {rest : List TranscriptSegment}
    {v : Str} (hc : cancel i = false) (hv : s.voice = some v)
    (hk : lib v = none) :
    generateTask lib wave cancel total i (s :: rest)
      = (GenEvent.progressEv i ((100 * i) / total) (procMsg i total)
          :: (generateTask lib wave cancel total (i + 1) rest).1,
         (generateTask lib wave cancel total (i + 1) rest).2) := by
  obtain ⟨txt, voi, sid⟩ := s
  dsimp only at hv
  subst hv
  simp only [generateTask]
  rw [if_neg (by simp [hc])]
  rw [hk]

theorem genTask_cancel_aux {α : Type} (lib : Str → Option VoiceKind) (wave : ℕ → α)
    (cancel : ℕ → Bool) (total : ℕ)
    (hmono : ∀ j k : ℕ, j ≤ k → cancel j = true → cancel k = true) :
    ∀ (segs : List TranscriptSegment) (st i : ℕ),
      (∀ s ∈ segs, s.voice.isSome) →
      cancel i = true → st ≤ i → i < st + segs.length →
      (generateTask lib wave cancel total st segs).2 = TaskResult.cancelledRes
      ∧ ∀ j, i ≤ j → ∀ k txt,
          GenEvent.synthEv j k txt ∉ (generateTask lib wave cancel total st segs).1
  | [], st, i, _, _, hle, hlt => by
    simp only [List.length_cons, List.length_nil] at hlt
    omega
  | s :: rest, st, i, hv, hci, hle, hlt => by
    by_cases hcs : cancel st = true
    · rw [generateTask_cancelStep hcs]
      exact ⟨rfl, fun j _ k txt hmem => by cases hmem⟩
    · have hcs' : cancel st = false := by
        cases hcc : cancel st
        · rfl
        · exact absurd hcc hcs
      have hst : st < i := by
        rcases Nat.lt_or_ge st i with h | h
        · exact h
        · exact absurd (hmono i st h hci) hcs
      obtain ⟨v, hv0⟩ := Option.isSome_iff_exists.1 (hv s (List.mem_cons_self _ _))
      have hvrest : ∀ s' ∈ rest, s'.voice.isSome :=
        fun s' hs' => hv s' (List.mem_cons_of_mem _ hs')
      have hlt' : i < (st + 1) + rest.length := by
        simp only [List.length_cons] at hlt
        omega
      have ih := genTask_cancel_aux lib wave cancel total hmono rest (st + 1) i hvrest hci
        (by omega) hlt'
      cases hk : lib v with
      | none =>
        rw [generateTask_libNone hcs' hv0 hk]
        refine ⟨ih.1, fun j hj k txt hmem => ?_⟩
        rcases List.mem_cons.1 hmem with h | hmem
        · cases h
        · exact ih.2 j hj k txt hmem
      | some kind =>
        cases kind with
        | preset =>
          rw [generateTask_preset hcs' hv0 hk]
          refine ⟨ih.1, fun j hj k txt hmem => ?_⟩
          rcases List.mem_cons.1 hmem with h | hmem
          · cases h
          · exact ih.2 j hj k txt hmem
        | cloned =>
          rw [generateTask_cloned hcs' hv0 hk]
          refine ⟨by rw [ih.1]; rfl, fun j hj k txt hmem => ?_⟩
          rcases List.mem_cons.1 hmem with h | hmem
          · cases h
          · rcases List.mem_cons.1 hmem with h | hmem
            · have hj' : j = st := by
                injection h
              omega
            · exact ih.2 j hj k txt hmem
        | designed =>
          rw [generateTask_designed hcs' hv0 hk]
          refine ⟨by rw [ih.1]; rfl, fun j hj k txt hmem => ?_⟩
          rcases List.mem_cons.1 hmem with h | hmem
          · cases h
          · rcases List.mem_cons.1 hmem with h | hmem
            · have hj' : j = st := by
                injection h
              omega
            · exact ih.2 j hj k txt hmem

/-- C5: in a job whose segments all carry resolved voices, with the cancellation flag
monotone (once requested it stays requested) and requested by the time segment `i`
begins its iteration, the job result is the cancelled sentinel — never a partial
waveform list — and no synthesis call occurs for any segment `j ≥ i`. -/
theorem cancel_stops_job {α : Type} (lib : Str → Option VoiceKind) (wave : ℕ → α)
    (cancel : ℕ → Bool) (segs : List TranscriptSegment) (i : ℕ)
    (hmono : ∀ j k : ℕ, j ≤ k → cancel j = true → cancel k = true)
    (hvoice : ∀ s ∈ segs, s.voice.isSome)
    (hcanc : cancel i = true) (hlen : i < segs.length) :
    (generateTask lib wave cancel segs.length 0 segs).2 = TaskResult.cancelledRes
    ∧ ∀ j, i ≤ j → ∀ k txt,
        GenEvent.synthEv j k txt ∉ (generateTask lib wave cancel segs.length 0 segs).1 :=
  genTask_cancel_aux lib wave cancel segs.length hmono segs 0 i hvoice hcanc
    (Nat.zero_le i) (by omega)

theorem cancel_stops_job_witness :
    (∀ j k : ℕ, j ≤ k → (decide (1 ≤ j)) = true → (decide (1 ≤ k)) = true)
    ∧ (∀ s ∈ [(⟨"a".toList, some "v".toList, 0⟩ : TranscriptSegment),
          ⟨"b".toList, some "v".toList, 1⟩], s.voice.isSome)
    ∧ (decide (1 ≤ 1)) = true
    ∧ 1 < [(⟨"a".toList, some "v".toList, 0⟩ : TranscriptSegment),
          ⟨"b".toList, some "v".toList, 1⟩].length
    ∧ ((generateTask (α := ℕ)
          (fun nm => if nm = "v".toList then some VoiceKind.cloned else none)
          (fun _ => 0) (fun j => decide (1 ≤ j))
          [(⟨"a".toList, some "v".toList, 0⟩ : TranscriptSegment),
            ⟨"b".toList, some "v".toList, 1⟩].length 0
          [(⟨"a".toList, some "v".toList, 0⟩ : TranscriptSegment),
            ⟨"b".toList, some "v".toList, 1⟩]).2 = TaskResult.cancelledRes
        ∧ ∀ j, 1 ≤ j → ∀ k txt,
            GenEvent.synthEv j k txt ∉ (generateTask (α := ℕ)
              (fun nm => if nm = "v".toList then some VoiceKind.cloned else none)
              (fun _ => 0) (fun j => decide (1 ≤ j))
              [(⟨"a".toList, some "v".toList, 0⟩ : TranscriptSegment),
                ⟨"b".toList, some "v".toList, 1⟩].length 0
              [(⟨"a".toList, some "v".toList, 0⟩ : TranscriptSegment),
                ⟨"b".toList, some "v".toList, 1⟩]).1) :=
  ⟨fun j k hjk hj => by
      rw [decide_eq_true_iff] at hj ⊢
      omega,
    by decide, by decide, by decide,
    cancel_stops_job
      (fun nm => if nm = "v".toList then some VoiceKind.cloned else none)
      (fun _ => 0) (fun j => decide (1 ≤ j))
      [⟨"a".toList, some "v".toList, 0⟩, ⟨"b".toList, some "v".toList, 1⟩] 1
      (fun j k hjk hj => by
        rw [decide_eq_true_iff] at hj ⊢
        omega)
      (by decide) (by decide) (by decide)⟩

/-- Segment ids of an optional parse result (empty when the parse errors). -/
def idsOf (o : Option (List TranscriptSegment)) : List ℕ :=
  (o.getD []).map TranscriptSegment.segment_id

theorem pairwise_ids_enumFrom : ∀ (blocks : List Str) (n : ℕ),
    List.Pairwise (· < ·)
      (((List.enumFrom n blocks).filterMap (fun pr =>
          if pyStrip pr.2 ≠ [] then some (⟨pyStrip pr.2, none, pr.1⟩ : TranscriptSegment)
          else none)).map TranscriptSegment.segment_id)
    ∧ ∀ m ∈ (((List.enumFrom n blocks).filterMap (fun pr =>
          if pyStrip pr.2 ≠ [] then some (⟨pyStrip pr.2, none, pr.1⟩ : TranscriptSegment)
          else none)).map TranscriptSegment.segment_id), n ≤ m
  | [], n => ⟨List.Pairwise.nil, fun m hm => by cases hm⟩
  | b :: bs, n => by
    have ih := pairwise_ids_enumFrom bs (n + 1)
    have hcons : List.enumFrom n (b :: bs) = (n, b) :: List.enumFrom (n + 1) bs := rfl
    rw [hcons, List.filterMap_cons]
    by_cases hb : pyStrip b ≠ []
    · rw [if_pos hb]
      simp only [List.map_cons]
      refine ⟨List.pairwise_cons.2 ⟨?_, ih.1⟩, ?_⟩
      · intro m hm
        have := ih.2 m hm
        omega
      · intro m hm
        rcases List.mem_cons.1 hm with rfl | hm
        · exact le_refl _
        · have := ih.2 m hm
          omega
    · rw [if_neg hb]
      refine ⟨ih.1, fun m hm => ?_⟩
      have := ih.2 m hm
      omega

theorem pairwise_ids_blocks (blocks : List Str) :
    List.Pairwise (· < ·) ((blocksToSegments blocks).map TranscriptSegment.segment_id) := by
  have h := pairwise_ids_enumFrom blocks 0
  exact h.1

theorem annot_ids : ∀ (lines : List Str) (voice : Option Str) (ct : List Str) (sid : ℕ),
    (annotLoop lines voice ct sid).map TranscriptSegment.segment_id
      = List.range' sid (annotLoop lines voice ct sid).length
  | [], voice, ct, sid => by
    simp only [annotLoop]
    by_cases h1 : ct ≠ []
    · rw [if_pos h1]
      by_cases h2 : pyStrip (List.intercalate [' '] ct) ≠ []
      · rw [if_pos h2]
        rfl
      · rw [if_neg h2]
        rfl
    · rw [if_neg h1]
      rfl
  | l :: rest, voice, ct, sid => by
    simp only [annotLoop]
    by_cases hline : pyStrip l = []
    · rw [if_pos hline]
      exact annot_ids rest voice ct sid
    · rw [if_neg hline]
      cases hm : speakerMatch true (pyStrip l) with
      | none => exact annot_ids rest voice (ct ++ [pyStrip l]) sid
      | some pr =>
        obtain ⟨cap, after⟩ := pr
        by_cases h1 : ct ≠ []
        · rw [if_pos h1]
          by_cases h2 : pyStrip (List.intercalate [' '] ct) ≠ []
          · rw [if_pos h2]
            simp only [List.length_cons, List.singleton_append, List.map_cons, List.length_append,
              List.length_singleton, List.length_nil, Nat.zero_add]
            have ih := annot_ids rest (some (pyStrip cap))
              (if pyStrip after ≠ [] then [pyStrip after] else []) (sid + 1)
            rw [ih, List.range'_succ sid _ 1]
          · rw [if_neg h2]
            simp only [List.nil_append, List.length_nil, Nat.add_zero]
            exact annot_ids rest (some (pyStrip cap))
              (if pyStrip after ≠ [] then [pyStrip after] else []) sid
        · rw [if_neg h1]
          simp only [List.nil_append, List.length_nil, Nat.add_zero]
          exact annot_ids rest (some (pyStrip cap))
            (if pyStrip after ≠ [] then [pyStrip after] else []) sid

theorem parse_transcript_singleMode (text : Str) (dv : Option Str) (h : pyStrip text ≠ []) :
    parse_transcript text "single".toList dv = some (parse_single text dv) := by
  unfold parse_transcript
  rw [if_neg h, if_pos rfl]

theorem parse_transcript_manualMode (text : Str) (dv : Option Str) (h : pyStrip text ≠ []) :
    parse_transcript text "manual".toList dv = some (parse_manual text) := by
  unfold parse_transcript
  rw [if_neg h, if_neg (show ¬("manual".toList = "single".toList) by decide), if_pos rfl]

theorem parse_transcript_annotatedMode (text : Str) (dv : Option Str) (h : pyStrip text ≠ []) :
    parse_transcript text "annotated".toList dv = some (parse_annotated text dv) := by
  unfold parse_transcript
  rw [if_neg h, if_neg (show ¬("annotated".toList = "single".toList) by decide),
    if_neg (show ¬("annotated".toList = "manual".toList) by decide), if_pos rfl]

theorem parse_transcript_paragraphsMode (text : Str) (dv : Option Str) (h : pyStrip text ≠ []) :
    parse_transcript text "paragraphs".toList dv = some (parse_paragraphs text) := by
  unfold parse_transcript
  rw [if_neg h, if_neg (show ¬("paragraphs".toList = "single".toList) by decide),
    if_neg (show ¬("paragraphs".toList = "manual".toList) by decide),
    if_neg (show ¬("paragraphs".toList = "annotated".toList) by decide), if_pos rfl]

/-- C4 (amended): segment ids are strictly increasing in emission order in every
parse mode; in single and annotated modes they are additionally 0-based and gap-free
(`ids = range len`); in manual and paragraphs modes each surviving block keeps the
index of its block in the split, so dropped blank blocks consume ids. -/
theorem segment_ids_discipline (text : Str) (dv : Option Str) :
    List.Pairwise (· < ·) (idsOf (parse_transcript text "manual".toList dv))
    ∧ List.Pairwise (· < ·) (idsOf (parse_transcript text "paragraphs".toList dv))
    ∧ idsOf (parse_transcript text "annotated".toList dv)
        = List.range (idsOf (parse_transcript text "annotated".toList dv)).length
    ∧ idsOf (parse_transcript text "single".toList dv)
        = List.range (idsOf (parse_transcript text "single".toList dv)).length := by
  by_cases hblank : pyStrip text = []
  · unfold parse_transcript
    simp only [if_pos hblank]
    exact ⟨List.Pairwise.nil, List.Pairwise.nil, rfl, rfl⟩
  · refine ⟨?_, ?_, ?_, ?_⟩
    · rw [parse_transcript_manualMode text dv hblank]
      exact pairwise_ids_blocks (manualSplit text)
    · rw [parse_transcript_paragraphsMode text dv hblank]
      exact pairwise_ids_blocks (nnSplit text)
    · rw [parse_transcript_annotatedMode text dv hblank]
      show (annotLoop (splitChar '\n' text) dv [] 0).map TranscriptSegment.segment_id
          = List.range ((annotLoop (splitChar '\n' text) dv [] 0).map
              TranscriptSegment.segment_id).length
      rw [annot_ids, List.length_range', List.range_eq_range']
    · rw [parse_transcript_singleMode text dv hblank]
      rfl

/-- C4 counterexample: in paragraphs mode the text `"a\n\n\n\nb"` splits into three
blocks `["a", "", "b"]`; the middle empty block is dropped but still consumes id 1,
so the surviving ids are `[0, 2]` — not the gap-free `[0, 1]` the claim demands. -/
theorem paragraph_ids_gap :
    idsOf (parse_transcript "a\n\n\n\nb".toList "paragraphs".toList none) = [0, 2]
    ∧ ([0, 2] : List ℕ) ≠ List.range 2 := by
  exact ⟨by decide, by decide⟩

theorem space_cases {c : Char} (h : pyIsSpace c = true) :
    c = ' ' ∨ c = '\t' ∨ c = '\n' ∨ c = '\r' ∨ c = '\x0b' ∨ c = '\x0c' := by
  unfold pyIsSpace at h
  simp only [Bool.or_eq_true, decide_eq_true_eq] at h
  tauto

theorem letter_not_space {c : Char} (h : isLatinLetter c = true) : pyIsSpace c = false := by
  cases hs : pyIsSpace c
  · rfl
  · rcases space_cases hs with rfl | rfl | rfl | rfl | rfl | rfl <;>
      exact absurd h (by decide)

theorem letter_ne_bracket {c : Char} (h : isLatinLetter c = true) : c ≠ '[' := by
  intro hEq
  subst hEq
  exact absurd h (by decide)

theorem letter_ne_paren {c : Char} (h : isLatinLetter c = true) : c ≠ '(' := by
  intro hEq
  subst hEq
  exact absurd h (by decide)

theorem space_not_letter {c : Char} (h : pyIsSpace c = true) : isLatinLetter c = false := by
  rcases space_cases h with rfl | rfl | rfl | rfl | rfl | rfl <;> decide

theorem space_ne_bracket {c : Char} (h : pyIsSpace c = true) : c ≠ '[' := by
  rcases space_cases h with rfl | rfl | rfl | rfl | rfl | rfl <;> decide

theorem space_ne_paren {c : Char} (h : pyIsSpace c = true) : c ≠ '(' := by
  rcases space_cases h with rfl | rfl | rfl | rfl | rfl | rfl <;> decide

theorem matchBracket_none {c : Char} {t : Str} (h : c ≠ '[') :
    matchBracket (c :: t) = none := by
  simp only [matchBracket]
  rw [if_neg h]

theorem matchParen_none {c : Char} {t : Str} (h : c ≠ '(') :
    matchParen (c :: t) = none := by
  simp only [matchParen]
  rw [if_neg h]

theorem matchBare_none {c : Char} {t : Str} (h : isLatinLetter c = false) :
    matchBare (c :: t) = none := by
  simp only [matchBare]
  rw [if_neg (by simp [h])]

theorem speakerMatch_none_false {c : Char} {t : Str} (hb : c ≠ '[') (hp : c ≠ '(') :
    speakerMatch false (c :: t) = none := by
  unfold speakerMatch
  rw [matchBracket_none hb, matchParen_none hp]
  rfl

theorem speakerMatch_none_true {c : Char} {t : Str} (hb : c ≠ '[') (hp : c ≠ '(')
    (hl : isLatinLetter c = false) :
    speakerMatch true (c :: t) = none := by
  unfold speakerMatch
  rw [matchBracket_none hb, matchParen_none hp]
  show (if true = true then matchBare (c :: t) else none) = none
  rw [if_pos rfl]
  exact matchBare_none hl

/-- The raw name captured by the bare tag alternative on a line. -/
def tagName (l : Str) : Str :=
  match l with
  | [] => []
  | c :: t => c :: t.takeWhile nameChar

/-- The text after the bare tag's colon on a line. -/
def tagRest (l : Str) : Str :=
  match l with
  | [] => []
  | _ :: t => (t.drop (t.takeWhile nameChar).length).tail

/-- A well-behaved annotated line `Name: text`: starts with a letter, the
letters-and-whitespace run before the colon is nonempty, the text after the colon is
non-blank and mentions no `[`, `(` or newline. -/
def goodTagB (l : Str) : Bool :=
  match l with
  | [] => false
  | c :: t =>
    isLatinLetter c && !(t.takeWhile nameChar).isEmpty
      && ((t.drop (t.takeWhile nameChar).length).head? == some ':')
      && !(pyStrip (tagRest l)).isEmpty
      && (tagRest l).all (fun x => x ≠ '[' && x ≠ '(' && x ≠ '\n')

/-- A blank line: whitespace only. -/
def blankB (l : Str) : Bool := l.all pyIsSpace

/-- A line of the simple annotated form: newline-free and either blank or a
well-behaved `Name: text` line. -/
def goodLineB (l : Str) : Bool :=
  l.all (fun c => c ≠ '\n') && (blankB l || goodTagB l)

/-- The non-empty voice labels of a segment list, as in
`set(s.voiceLabel for s in segments if s.voiceLabel)`. -/
def voiceLabels (segs : List TranscriptSegment) : List Str :=
  (segs.filterMap TranscriptSegment.voice).filter (fun v => v ≠ [])

/-- The stripped names of the well-behaved tag lines, in order. -/
def tagNames (lines : List Str) : List Str :=
  (lines.filter goodTagB).map (fun l => pyStrip (tagName l))

theorem drop_length_takeWhile (p : Char → Bool) :
    ∀ t : Str, t.drop (t.takeWhile p).length = t.dropWhile p
  | [] => rfl
  | c :: t => by
    by_cases h : p c
    · rw [List.takeWhile_cons_of_pos h, List.dropWhile_cons_of_pos h]
      simp only [List.length_cons, List.drop_succ_cons]
      exact drop_length_takeWhile p t
    · rw [List.takeWhile_cons_of_neg h, List.dropWhile_cons_of_neg h]
      rfl

theorem takeWhile_append_stop {p : Char → Bool} {y : Char} (hy : p y = false) :
    ∀ {a : Str}, (∀ x ∈ a, p x = true) → ∀ (b : Str),
      (a ++ y :: b).takeWhile p = a
  | [], _, b => by
    rw [List.nil_append, List.takeWhile_cons_of_neg (by simp [hy])]
  | c :: a', h, b => by
    rw [List.cons_append, List.takeWhile_cons_of_pos (h c (List.mem_cons_self _ _))]
    rw [takeWhile_append_stop hy (fun x hx => h x (List.mem_cons_of_mem _ hx)) b]

theorem matchBare_name {c : Char} {run r : Str}
    (hc : isLatinLetter c = true) (hrun : run ≠ []) (hall : ∀ x ∈ run, nameChar x = true) :
    matchBare (c :: (run ++ ':' :: r)) = some (c :: run, r) := by
  simp only [matchBare]
  rw [if_pos (by simp [hc])]
  have htake : (run ++ ':' :: r).takeWhile nameChar = run :=
    takeWhile_append_stop (by decide) hall r
  rw [htake, List.drop_left]
  rw [if_pos ⟨rfl, hrun⟩]
  rfl

theorem speakerMatch_tag {c : Char} {run r : Str}
    (hc : isLatinLetter c = true) (hrun : run ≠ []) (hall : ∀ x ∈ run, nameChar x = true) :
    speakerMatch true (c :: (run ++ ':' :: r)) = some (c :: run, r) := by
  unfold speakerMatch
  rw [matchBracket_none (letter_ne_bracket hc), matchParen_none (letter_ne_paren hc)]
  show (if true = true then matchBare (c :: (run ++ ':' :: r)) else none) = _
  rw [if_pos rfl]
  exact matchBare_name hc hrun hall

theorem ne_nil_of_isEmpty_false {l : List Char} (h : l.isEmpty = false) : l ≠ [] := by
  intro hc
  subst hc
  cases h

theorem goodTag_decomp {l : Str} (h : goodTagB l = true) :
    ∃ c run, l = c :: (run ++ ':' :: tagRest l)
      ∧ isLatinLetter c = true ∧ run ≠ [] ∧ (∀ x ∈ run, nameChar x = true)
      ∧ tagName l = c :: run ∧ pyStrip (tagRest l) ≠ []
      ∧ (∀ x ∈ tagRest l, x ≠ '[' ∧ x ≠ '(' ∧ x ≠ '\n') := by
  cases l with
  | nil => cases h
  | cons c t =>
    unfold goodTagB at h
    simp only [Bool.and_eq_true, Bool.not_eq_true', beq_iff_eq, List.all_eq_true] at h
    obtain ⟨⟨⟨⟨h1, h2⟩, h3⟩, h4⟩, h5⟩ := h
    refine ⟨c, t.takeWhile nameChar, ?_, h1, ne_nil_of_isEmpty_false h2,
      fun x hx => List.mem_takeWhile_imp hx,
      rfl, ne_nil_of_isEmpty_false h4, fun x hx => ?_⟩
    · have hsplit : t = t.takeWhile nameChar ++ t.dropWhile nameChar :=
        (List.takeWhile_append_dropWhile nameChar t).symm
      have hdw : t.dropWhile nameChar = ':' :: tagRest (c :: t) := by
        rw [← drop_length_takeWhile nameChar t] at *
        cases hd : t.drop (t.takeWhile nameChar).length with
        | nil =>
          rw [hd] at h3
          cases h3
        | cons y ys =>
          rw [hd] at h3
          simp only [List.head?_cons] at h3
          have hy := Option.some.inj h3
          subst hy
          show ':' :: ys = ':' :: (t.drop (t.takeWhile nameChar).length).tail
          rw [hd]
          rfl
      conv_lhs => rw [hsplit]
      rw [hdw]
    · have := h5 x hx
      simp only [Bool.and_eq_true, decide_eq_true_eq] at this
      exact ⟨this.1.1, this.1.2, this.2⟩

theorem blank_not_tag {l : Str} (h : blankB l = true) : goodTagB l = false := by
  cases l with
  | nil => rfl
  | cons c t =>
    unfold blankB at h
    rw [List.all_eq_true] at h
    have hc := h c (List.mem_cons_self _ _)
    cases hg : goodTagB (c :: t)
    · rfl
    · obtain ⟨c', run, heq, hlet, _⟩ := goodTag_decomp hg
      have hcc : c' = c := (List.cons.inj heq).1.symm
      subst hcc
      rw [space_not_letter hc] at hlet
      cases hlet

theorem pyRStrip_append {A B : Str} (hB : ∃ x ∈ B, pyIsSpace x = false) :
    pyRStrip (A ++ B) = A ++ pyRStrip B := by
  unfold pyRStrip
  rw [List.reverse_append]
  have hne : (List.dropWhile pyIsSpace B.reverse).isEmpty = false := by
    obtain ⟨x, hx, hxs⟩ := hB
    have hmem := mem_dropWhile_of_not (p := pyIsSpace) (List.mem_reverse.2 hx) (by simp [hxs])
    cases hd : List.dropWhile pyIsSpace B.reverse with
    | nil =>
      rw [hd] at hmem
      cases hmem
    | cons y ys => rfl
  rw [List.dropWhile_append, if_neg (by simp [hne])]
  rw [List.reverse_append, List.reverse_reverse]

theorem mem_pyRStrip_of_not_space {s : Str} {x : Char} (hx : x ∈ s)
    (hxs : pyIsSpace x = false) : x ∈ pyRStrip s := by
  unfold pyRStrip
  exact List.mem_reverse.2
    (mem_dropWhile_of_not (p := pyIsSpace) (List.mem_reverse.2 hx) (by simp [hxs]))

theorem mem_pyStrip_of_not_space {s : Str} {x : Char} (hx : x ∈ s)
    (hxs : pyIsSpace x = false) : x ∈ pyStrip s := by
  unfold pyStrip
  exact mem_pyRStrip_of_not_space
    (mem_dropWhile_of_not (p := pyIsSpace) hx (by simp [hxs])) hxs

theorem exists_not_space_of_pyStrip_ne_nil {s : Str} (h : pyStrip s ≠ []) :
    ∃ x ∈ s, pyIsSpace x = false := by
  by_contra hcon
  push_neg at hcon
  refine h (pyStrip_eq_nil_iff s |>.2 ?_)
  intro c hc
  have := hcon c hc
  cases hcs : pyIsSpace c
  · exact absurd hcs this
  · rfl

theorem pyStrip_tagLine {l : Str} (h : goodTagB l = true) :
    pyStrip l = tagName l ++ ':' :: pyRStrip (tagRest l) := by
  obtain ⟨c, run, heq, hlet, hrun, hall, hname, hrest, _⟩ := goodTag_decomp h
  have hnonsp : ∃ x ∈ tagRest l, pyIsSpace x = false :=
    exists_not_space_of_pyStrip_ne_nil hrest
  rw [hname]
  set r := tagRest l with hr
  conv_lhs => rw [heq]
  unfold pyStrip
  rw [List.dropWhile_cons_of_neg (by simp [letter_not_space hlet])]
  have hassoc : c :: (run ++ ':' :: r) = (c :: run ++ [':']) ++ r := by
    simp
  rw [hassoc, pyRStrip_append hnonsp]
  simp

theorem scanF_skip_noLs : ∀ (s : Str) (tail : Str),
    (∀ c ∈ s, c ≠ '[' ∧ c ≠ '(' ∧ c ≠ '\n') →
    scanF (s ++ tail) false = scanF tail false
  | [], _, _ => by rw [List.nil_append]
  | c :: s', tail, h => by
    have hc := h c (List.mem_cons_self _ _)
    rw [List.cons_append,
      scanF_cons_none (speakerMatch_none_false hc.1 hc.2.1),
      show (c == '\n') = false by simp [hc.2.2]]
    exact scanF_skip_noLs s' tail (fun x hx => h x (List.mem_cons_of_mem _ hx))

theorem scanF_skip_blank : ∀ (s : Str) (tail : Str) (ls : Bool),
    (∀ c ∈ s, pyIsSpace c = true ∧ c ≠ '\n') →
    scanF (s ++ tail) ls = scanF tail (if s.isEmpty then ls else false)
  | [], _, ls, _ => by rw [List.nil_append]; rfl
  | c :: s', tail, ls, h => by
    have hc := h c (List.mem_cons_self _ _)
    have hnone : speakerMatch ls (c :: (s' ++ tail)) = none := by
      cases ls
      · exact speakerMatch_none_false (space_ne_bracket hc.1) (space_ne_paren hc.1)
      · exact speakerMatch_none_true (space_ne_bracket hc.1) (space_ne_paren hc.1)
          (space_not_letter hc.1)
    rw [List.cons_append, scanF_cons_none hnone,
      show (c == '\n') = false by simp [hc.2]]
    rw [scanF_skip_blank s' tail false (fun x hx => h x (List.mem_cons_of_mem _ hx))]
    have hfalse : (if s'.isEmpty then false else false) = false := by
      cases s'.isEmpty <;> rfl
    rw [hfalse]
    rfl

theorem scanF_all_space : ∀ (s : Str) (ls : Bool),
    (∀ c ∈ s, pyIsSpace c = true) → scanF s ls = []
  | [], ls, _ => by cases ls <;> rfl
  | c :: s', ls, h => by
    have hc := h c (List.mem_cons_self _ _)
    have hnone : speakerMatch ls (c :: s') = none := by
      cases ls
      · exact speakerMatch_none_false (space_ne_bracket hc) (space_ne_paren hc)
      · exact speakerMatch_none_true (space_ne_bracket hc) (space_ne_paren hc)
          (space_not_letter hc)
    rw [scanF_cons_none hnone]
    exact scanF_all_space s' _ (fun x hx => h x (List.mem_cons_of_mem _ hx))

theorem newline_step (irest : Str) (ls : Bool) :
    scanF ('\n' :: irest) ls = scanF irest true := by
  have hnone : speakerMatch ls ('\n' :: irest) = none := by
    cases ls
    · exact speakerMatch_none_false (by decide) (by decide)
    · exact speakerMatch_none_true (by decide) (by decide) (by decide)
  rw [scanF_cons_none hnone]
  rfl

theorem intercalate_single (l : Str) : List.intercalate ['\n'] [l] = l := by
  simp [List.intercalate]

theorem intercalate_cons₂ (l l' : Str) (rest : List Str) :
    List.intercalate ['\n'] (l :: l' :: rest)
      = l ++ '\n' :: List.intercalate ['\n'] (l' :: rest) := by
  simp [List.intercalate, List.intersperse]

theorem goodLine_split {l : Str} (h : goodLineB l = true) :
    (∀ c ∈ l, c ≠ '\n') ∧ (blankB l = true ∨ goodTagB l = true) := by
  unfold goodLineB at h
  simp only [Bool.and_eq_true, Bool.or_eq_true, List.all_eq_true, decide_eq_true_eq] at h
  exact h

theorem scanF_tagLine {l : Str} (h : goodTagB l = true) (X : Str) :
    scanF (l ++ X) true = tagName l :: scanF X false := by
  obtain ⟨c, run, heq, hlet, hrun, hall, hname, hrest, hchars⟩ := goodTag_decomp h
  rw [hname]
  set r := tagRest l with hr
  conv_lhs => rw [heq]
  have hassoc : (c :: (run ++ ':' :: r)) ++ X = c :: (run ++ ':' :: (r ++ X)) := by
    simp
  rw [hassoc]
  rw [scanF_cons_some (speakerMatch_tag hlet hrun hall)]
  congr 1
  exact scanF_skip_noLs r X hchars

theorem blank_all_space {l : Str} (h : blankB l = true) : ∀ c ∈ l, pyIsSpace c = true := by
  unfold blankB at h
  rw [List.all_eq_true] at h
  exact h

theorem scan_good : ∀ (lines : List Str), (∀ l ∈ lines, goodLineB l = true) →
    scanF (List.intercalate ['\n'] lines) true = (lines.filter goodTagB).map tagName
  | [], _ => rfl
  | [l], hG => by
    rw [intercalate_single]
    have hgl := goodLine_split (hG l (List.mem_cons_self _ _))
    rcases hgl.2 with hb | ht
    · rw [scanF_all_space l true (blank_all_space hb)]
      rw [List.filter_cons_of_neg (by simp [blank_not_tag hb])]
      rfl
    · have hstep := scanF_tagLine ht []
      rw [List.append_nil] at hstep
      rw [hstep, show scanF [] false = [] from rfl]
      rw [List.filter_cons_of_pos (by simp [ht])]
      rfl
  | l :: l' :: rest, hG => by
    rw [intercalate_cons₂]
    have hgl := goodLine_split (hG l (List.mem_cons_self _ _))
    have hG' : ∀ x ∈ l' :: rest, goodLineB x = true :=
      fun x hx => hG x (List.mem_cons_of_mem _ hx)
    have ih := scan_good (l' :: rest) hG'
    rcases hgl.2 with hb | ht
    · have hblanknl : ∀ c ∈ l, pyIsSpace c = true ∧ c ≠ '\n' :=
        fun c hc => ⟨blank_all_space hb c hc, hgl.1 c hc⟩
      rw [scanF_skip_blank l ('\n' :: List.intercalate ['\n'] (l' :: rest)) true hblanknl]
      rw [newline_step, ih]
      conv_rhs => rw [List.filter_cons_of_neg (by simp [blank_not_tag hb])]
    · rw [scanF_tagLine ht ('\n' :: List.intercalate ['\n'] (l' :: rest))]
      rw [newline_step, ih]
      conv_rhs => rw [List.filter_cons_of_pos (by simp [ht])]
      rw [List.map_cons]

theorem splitChar_no_sep {sep : Char} : ∀ {s : Str}, (∀ c ∈ s, c ≠ sep) →
    splitChar sep s = [s]
  | [], _ => rfl
  | c :: t, h => by
    conv_lhs => unfold splitChar
    rw [if_neg (h c (List.mem_cons_self _ _))]
    rw [splitChar_no_sep (fun x hx => h x (List.mem_cons_of_mem _ hx))]

theorem splitChar_append_sep {sep : Char} : ∀ {a : Str} (b : Str), (∀ c ∈ a, c ≠ sep) →
    splitChar sep (a ++ sep :: b) = a :: splitChar sep b
  | [], b, _ => by
    rw [List.nil_append]
    conv_lhs => unfold splitChar
    rw [if_pos rfl]
  | c :: a', b, h => by
    rw [List.cons_append]
    conv_lhs => unfold splitChar
    rw [if_neg (h c (List.mem_cons_self _ _))]
    rw [splitChar_append_sep b (fun x hx => h x (List.mem_cons_of_mem _ hx))]

theorem intercalate_singleton (sep : List Char) (l : Str) :
    List.intercalate sep [l] = l := by
  simp [List.intercalate]

theorem splitChar_intercalate : ∀ (lines : List Str), lines ≠ [] →
    (∀ l ∈ lines, ∀ c ∈ l, c ≠ '\n') →
    splitChar '\n' (List.intercalate ['\n'] lines) = lines
  | [], h, _ => absurd rfl h
  | [l], _, h => by
    rw [intercalate_singleton]
    exact splitChar_no_sep (h l (List.mem_cons_self _ _))
  | l :: l' :: rest, _, h => by
    rw [intercalate_cons₂]
    rw [splitChar_append_sep _ (h l (List.mem_cons_self _ _))]
    rw [splitChar_intercalate (l' :: rest) (by simp)
      (fun x hx => h x (List.mem_cons_of_mem _ hx))]

theorem mem_intercalate_of_mem : ∀ {lines : List Str} {l : Str} {x : Char},
    l ∈ lines → x ∈ l → x ∈ List.intercalate ['\n'] lines
  | [], l, x, hl, _ => absurd hl (List.not_mem_nil l)
  | [l'], l, x, hl, hx => by
    rw [intercalate_singleton]
    rw [List.mem_singleton] at hl
    subst hl
    exact hx
  | l₀ :: l₁ :: rest, l, x, hl, hx => by
    rw [intercalate_cons₂]
    rcases List.mem_cons.1 hl with rfl | h
    · exact List.mem_append.2 (Or.inl hx)
    · exact List.mem_append.2 (Or.inr (List.mem_cons_of_mem _ (mem_intercalate_of_mem h hx)))

theorem intercalate_all_space : ∀ {lines : List Str},
    (∀ l ∈ lines, blankB l = true) →
    ∀ c ∈ List.intercalate ['\n'] lines, pyIsSpace c = true
  | [], _, c, hc => absurd hc (List.not_mem_nil c)
  | [l], h, c, hc => by
    rw [intercalate_singleton] at hc
    exact blank_all_space (h l (List.mem_cons_self _ _)) c hc
  | l :: l' :: rest, h, c, hc => by
    rw [intercalate_cons₂] at hc
    rcases List.mem_append.1 hc with hc | hc
    · exact blank_all_space (h l (List.mem_cons_self _ _)) c hc
    · rcases List.mem_cons.1 hc with rfl | hc
      · decide
      · exact intercalate_all_space (fun x hx => h x (List.mem_cons_of_mem _ hx)) c hc

theorem voiceLabels_append (A B : List TranscriptSegment) :
    voiceLabels (A ++ B) = voiceLabels A ++ voiceLabels B := by
  unfold voiceLabels
  rw [List.filterMap_append, List.filter_append]

theorem voiceLabels_flush {tc n : Str} {sid : ℕ} (hn : n ≠ []) :
    voiceLabels [⟨tc, some n, sid⟩] = [n] := by
  unfold voiceLabels
  simp [hn]

theorem annotLoop_tagStep {l : Str} {rest : List Str} {voice : Option Str} {ct : List Str}
    {sid : ℕ} {cap after : Str}
    (hne : pyStrip l ≠ []) (hm : speakerMatch true (pyStrip l) = some (cap, after)) :
    annotLoop (l :: rest) voice ct sid
      = (if ct ≠ [] then
            (if pyStrip (List.intercalate [' '] ct) ≠ []
              then [⟨pyStrip (List.intercalate [' '] ct), voice, sid⟩] else [])
          else [])
        ++ annotLoop rest (some (pyStrip cap))
            (if pyStrip after ≠ [] then [pyStrip after] else [])
            (sid + (if ct ≠ [] then
              (if pyStrip (List.intercalate [' '] ct) ≠ []
                then [(⟨pyStrip (List.intercalate [' '] ct), voice, sid⟩ : TranscriptSegment)]
                else [])
              else []).length) := by
  simp only [annotLoop]
  rw [if_neg hne]
  cases hm' : speakerMatch true (pyStrip l) with
  | none =>
    rw [hm] at hm'
    cases hm'
  | some pr =>
    have hpr : pr = (cap, after) := by
      rw [hm] at hm'
      exact (Option.some.inj hm').symm
    subst hpr
    rfl

theorem annot_labels_good : ∀ (lines : List Str), (∀ l ∈ lines, goodLineB l = true) →
    (∀ (voice : Option Str) (sid : ℕ),
      voiceLabels (annotLoop lines voice [] sid) = tagNames lines)
    ∧ (∀ (n r : Str) (sid : ℕ), n ≠ [] → (∃ x ∈ r, pyIsSpace x = false) →
      voiceLabels (annotLoop lines (some n) [r] sid) = n :: tagNames lines)
  | [], _ => by
    constructor
    · intro voice sid
      simp [annotLoop, voiceLabels, tagNames]
    · intro n r sid hn hw
      obtain ⟨x, hx, hxs⟩ := hw
      simp only [annotLoop]
      rw [if_pos (by simp), intercalate_singleton]
      rw [if_pos (pyStrip_ne_nil hx hxs)]
      rw [voiceLabels_flush hn]
      rfl
  | l :: rest, hG => by
    have hgl := goodLine_split (hG l (List.mem_cons_self _ _))
    have hG' : ∀ x ∈ rest, goodLineB x = true :=
      fun x hx => hG x (List.mem_cons_of_mem _ hx)
    have ih := annot_labels_good rest hG'
    rcases hgl.2 with hb | ht
    · have hstrip : pyStrip l = [] := (pyStrip_eq_nil_iff l).2 (blank_all_space hb)
      have htags : tagNames (l :: rest) = tagNames rest := by
        unfold tagNames
        rw [List.filter_cons_of_neg (by simp [blank_not_tag hb])]
      constructor
      · intro voice sid
        simp only [annotLoop]
        rw [if_pos hstrip, ih.1 voice sid, htags]
      · intro n r sid hn hw
        simp only [annotLoop]
        rw [if_pos hstrip, ih.2 n r sid hn hw, htags]
    · obtain ⟨c, run, heq, hlet, hrun, hall, hname, hrest, hchars⟩ := goodTag_decomp ht
      have hcl : c ∈ l := by
        rw [heq]
        exact List.mem_cons_self _ _
      have hstripne : pyStrip l ≠ [] := pyStrip_ne_nil hcl (letter_not_space hlet)
      have hmatch : speakerMatch true (pyStrip l)
          = some (tagName l, pyRStrip (tagRest l)) := by
        rw [pyStrip_tagLine ht, hname]
        exact speakerMatch_tag hlet hrun hall
      obtain ⟨x, hx, hxs⟩ := exists_not_space_of_pyStrip_ne_nil hrest
      have hxafter : x ∈ pyRStrip (tagRest l) := mem_pyRStrip_of_not_space hx hxs
      have hxrem : x ∈ pyStrip (pyRStrip (tagRest l)) := mem_pyStrip_of_not_space hxafter hxs
      have hremne : pyStrip (pyRStrip (tagRest l)) ≠ [] := List.ne_nil_of_mem hxrem
      have hremw : ∃ y ∈ pyStrip (pyRStrip (tagRest l)), pyIsSpace y = false := ⟨x, hxrem, hxs⟩
      have hcn : c ∈ tagName l := by
        rw [hname]
        exact List.mem_cons_self _ _
      have hnvne : pyStrip (tagName l) ≠ [] := pyStrip_ne_nil hcn (letter_not_space hlet)
      have htags : tagNames (l :: rest) = pyStrip (tagName l) :: tagNames rest := by
        unfold tagNames
        rw [List.filter_cons_of_pos (by simp [ht]), List.map_cons]
      constructor
      · intro voice sid
        rw [annotLoop_tagStep hstripne hmatch]
        rw [if_neg (show ¬(([] : List Str) ≠ []) by simp)]
        rw [if_pos hremne]
        rw [List.nil_append]
        rw [ih.2 (pyStrip (tagName l)) (pyStrip (pyRStrip (tagRest l))) _ hnvne hremw]
        rw [htags]
      · intro n r sid hn hw
        obtain ⟨y, hy, hys⟩ := hw
        rw [annotLoop_tagStep hstripne hmatch]
        rw [if_pos (show ([r] : List Str) ≠ [] by simp)]
        rw [intercalate_singleton]
        rw [if_pos (pyStrip_ne_nil hy hys)]
        rw [if_pos hremne]
        rw [voiceLabels_append]
        rw [voiceLabels_flush hn]
        rw [ih.2 (pyStrip (tagName l)) (pyStrip (pyRStrip (tagRest l))) _ hnvne hremw]
        rw [htags]
        rfl

/-- C6 (amended): for every text whose lines are newline-free and either blank or of
the well-behaved form `Name: text` (name starting with a letter and at least two
name characters, non-blank text after the colon mentioning no `[` or `(`), the set of
non-empty voiceLabels over annotated-mode segmentation equals the set returned by
`DetectSpeakers` on the same text. -/
theorem annotated_labels_match_detect (lines : List Str)
    (hG : ∀ l ∈ lines, goodLineB l = true) :
    ∀ v : Str,
      v ∈ voiceLabels ((parse_transcript (List.intercalate ['\n'] lines)
          "annotated".toList none).getD [])
        ↔ v ∈ detect_speakers (List.intercalate ['\n'] lines) := by
  intro v
  by_cases hblank : pyStrip (List.intercalate ['\n'] lines) = []
  · unfold parse_transcript
    rw [if_pos hblank]
    have hdet : detect_speakers (List.intercalate ['\n'] lines) = [] := by
      unfold detect_speakers
      have hall : ∀ c ∈ List.intercalate ['\n'] lines, pyIsSpace c = true :=
        (pyStrip_eq_nil_iff _).1 hblank
      rw [show scanF (List.intercalate ['\n'] lines) true = []
        from scanF_all_space _ _ hall]
      rfl
    rw [hdet]
    simp [voiceLabels]
  · rw [parse_transcript_annotatedMode _ _ hblank]
    have hlinesne : lines ≠ [] := by
      intro hc
      subst hc
      exact hblank rfl
    have hnl : ∀ l ∈ lines, ∀ c ∈ l, c ≠ '\n' :=
      fun l hl c hc => (goodLine_split (hG l hl)).1 c hc
    show v ∈ voiceLabels (parse_annotated (List.intercalate ['\n'] lines) none) ↔ _
    unfold parse_annotated
    rw [splitChar_intercalate lines hlinesne hnl]
    rw [(annot_labels_good lines hG).1 none 0]
    unfold detect_speakers
    rw [mem_sortStrs, List.mem_dedup]
    rw [scan_good lines hG]
    have hfe : ((lines.filter goodTagB).map tagName).filter (fun cap => cap ≠ [])
        = (lines.filter goodTagB).map tagName := by
      rw [List.filter_eq_self]
      intro a ha
      rw [List.mem_map] at ha
      obtain ⟨l, hl, rfl⟩ := ha
      have hgt : goodTagB l = true := List.of_mem_filter hl
      obtain ⟨c, run, _, _, _, _, hname, _, _⟩ := goodTag_decomp hgt
      simp [hname]
    rw [hfe, List.map_map]
    exact Iff.rfl

theorem annotated_labels_match_detect_witness :
    (∀ l ∈ [("Alice: Hi").toList, ("Bob: Yo").toList], goodLineB l = true)
    ∧ (∀ v : Str,
        v ∈ voiceLabels ((parse_transcript
            (List.intercalate ['\n'] [("Alice: Hi").toList, ("Bob: Yo").toList])
            "annotated".toList none).getD [])
          ↔ v ∈ detect_speakers
              (List.intercalate ['\n'] [("Alice: Hi").toList, ("Bob: Yo").toList])) :=
  ⟨by decide, annotated_labels_match_detect _ (by decide)⟩

/-- C6 counterexample: on `"hello (Bob)"` annotated-mode segmentation assigns no
voice label at all (no tag matches at the start of the stripped line), while
`DetectSpeakers` scans the whole text and captures the mid-line `(Bob)`, so the two
sets differ. -/
theorem annotated_labels_mismatch :
    voiceLabels ((parse_transcript "hello (Bob)".toList "annotated".toList none).getD [])
        = []
    ∧ detect_speakers "hello (Bob)".toList = ["Bob".toList]
    ∧ "Bob".toList ∈ detect_speakers "hello (Bob)".toList
    ∧ "Bob".toList ∉
        voiceLabels ((parse_transcript "hello (Bob)".toList "annotated".toList none).getD []) := by
  refine ⟨by decide, by decide, by decide, by decide⟩
